import Mathlib

set_option autoImplicit false

/-!
Verification development for the Job-Search repository's matching and
synchronization core.  Text is modelled as `List Char`; timestamps as `ℤ`;
Python floats as exact rationals (`ℚ`) except where `math.sqrt` forces `ℝ`.
Each section names the Python function it embeds.
-/

/-! # Text layer: `LocalRAGMatcher._clean_text` and friends
(`src/app/services/matching_service_mongo.py`)

`_clean_text` performs, in order: `str.lower()`, `re.sub(r'http\S+|www\S+','')`,
`re.sub(r'\S+@\S+','')`, `re.sub(r'[^a-z0-9\s\+\#\.\-]',' ')`, and
`' '.join(text.split())`.  The two deletion regexes never match across
whitespace, and both consume from the match start to the end of the maximal
non-space run (greedy `\S+`); `scanAux` implements exactly this leftmost
scan-and-skip behaviour, with the skip state made explicit so the recursion is
structural. -/

/-- Python whitespace (`str.split` / regex `\s`): space, tab, LF, CR, VT, FF. -/
def isSpc (c : Char) : Bool :=
  c == ' ' || c == '\t' || c == '\n' || c == '\r' || c == '\x0b' || c == '\x0c'

/-- Characters kept by the filter regex class `[a-z0-9\+\#\.\-]`
(whitespace is handled separately). -/
def keepChar (c : Char) : Bool :=
  (decide ('a' ≤ c ∧ c ≤ 'z')) || (decide ('0' ≤ c ∧ c ≤ '9')) ||
    c == '+' || c == '#' || c == '.' || c == '-'

/-- Python `str.lower()` on ASCII. -/
def pyLower (c : Char) : Char :=
  if 'A' ≤ c ∧ c ≤ 'Z' then Char.ofNat (c.toNat + 32) else c

/-- Does `p` occur literally at the head of `l`?  (Regex literal match.) -/
def hasPre : List Char → List Char → Bool
  | [], _ => true
  | _ :: _, [] => false
  | p :: ps, c :: cs => p == c && hasPre ps cs

/-- Is there a non-space character at index `n` of `l`?  Used for the
mandatory `\S+` right after the `http`/`www` literal. -/
def nonSpaceAt (l : List Char) (n : Nat) : Bool :=
  match l.drop n with
  | [] => false
  | c :: _ => !isSpc c

/-- A match of `http\S+|www\S+` starts exactly here. -/
def urlHit (l : List Char) : Bool :=
  (hasPre ['h', 't', 't', 'p'] l && nonSpaceAt l 4) ||
    (hasPre ['w', 'w', 'w'] l && nonSpaceAt l 3)

/-- A match of `\S+@\S+` starts exactly here: the maximal non-space run from
this position contains an `@` with at least one run character on each side. -/
def emailHit (l : List Char) : Bool :=
  (((l.takeWhile (fun x => !isSpc x)).drop 1).dropLast).contains '@'

/-- One leftmost scan of `re.sub(pat, '', text)` for a pattern whose match
always extends from its start to the end of the current non-space run.
`skipping = true` means we are inside a run already consumed by a match. -/
def scanAux (hit : List Char → Bool) : Bool → List Char → List Char
  | _, [] => []
  | true, c :: cs =>
    if !isSpc c then scanAux hit true cs
    else if hit (c :: cs) then scanAux hit true cs
    else c :: scanAux hit false cs
  | false, c :: cs =>
    if hit (c :: cs) then scanAux hit true cs
    else c :: scanAux hit false cs

/-- `re.sub(pat, '', text)` for the two deletion patterns above. -/
def scanSub (hit : List Char → Bool) (l : List Char) : List Char :=
  scanAux hit false l

/-- The character-class substitution `re.sub(r'[^a-z0-9\s\+\#\.\-]', ' ', t)`. -/
def charFilter (l : List Char) : List Char :=
  l.map fun c => if keepChar c || isSpc c then c else ' '

/-- Python `str.split()` (split on whitespace runs, no empty words),
with an explicit reversed-accumulator for the word being built. -/
def wordsAux : List Char → List Char → List (List Char)
  | [], acc => if acc.isEmpty then [] else [acc.reverse]
  | c :: cs, acc =>
    if isSpc c then
      if acc.isEmpty then wordsAux cs [] else acc.reverse :: wordsAux cs []
    else wordsAux cs (c :: acc)

def words (l : List Char) : List (List Char) :=
  wordsAux l []

/-- `' '.join(ws)`. -/
def unwords : List (List Char) → List Char
  | [] => []
  | [w] => w
  | w :: ws => w ++ ' ' :: unwords ws

/-- `LocalRAGMatcher._clean_text`. -/
def cleanText (l : List Char) : List Char :=
  unwords (words (charFilter (scanSub emailHit (scanSub urlHit (l.map pyLower)))))

-- quick sanity checks of the embedding on concrete strings
example :
    cleanText (("Hello,   WORLD! see http://x.y and a@b.c ok" : String)).toList
      = (("hello world see and ok" : String)).toList := by decide

example : cleanText (("C++ and c# .NET" : String)).toList
    = (("c++ and c# .net" : String)).toList := by decide

/-! # Scoring layer: `LocalRAGMatcher`
Keyword extraction (`_extract_keywords`), skill extraction (`_extract_skills`),
and the three component scores.  `Counter` is modelled as an association list
in insertion order; `Counter.most_common` is a stable descending sort by
value, which is what Python's stable `sorted(..., reverse=True)` produces. -/

/-- The `TECH_SKILLS` set literal (the Python set; the duplicated `'redis'`
entry of the literal collapses in a set, so it appears once here). -/
def TECH_SKILLS : List (List Char) :=
  ["python", "java", "javascript", "typescript", "react", "angular", "vue",
   "node", "nodejs", "django", "flask", "fastapi", "spring", "sql", "nosql",
   "mongodb", "postgresql", "mysql", "redis", "docker", "kubernetes", "aws",
   "azure", "gcp", "api", "rest", "graphql", "microservices", "agile", "scrum",
   "git", "ci/cd", "devops", "machine learning", "ml", "ai", "data science",
   "tensorflow", "pytorch", "pandas", "numpy", "spark", "hadoop", "kafka",
   "android", "ios", "swift", "kotlin", "flutter", "react native", "html",
   "css", "sass", "webpack", "elasticsearch", "rabbitmq", "testing",
   "junit", "pytest", "selenium", "cypress", "c++", "golang", "rust", "scala",
   "ruby", "php", "laravel", "rails", ".net", "c#", "asp.net", "blazor"
  ].map String.toList

/-- The `STOP_WORDS` set literal. -/
def STOP_WORDS : List (List Char) :=
  ["a", "an", "and", "are", "as", "at", "be", "by", "for", "from", "has",
   "he", "in", "is", "it", "its", "of", "on", "that", "the", "to", "was",
   "will", "with", "we", "you", "your", "our", "this", "should", "can",
   "may", "must", "have", "had", "but", "or", "not", "been", "which"
  ].map String.toList

/-- Python `hay.find(needle)` as an option (source only calls it when the
needle is present). -/
def findSub (n : List Char) : List Char → Option Nat
  | [] => if n.isEmpty then some 0 else none
  | c :: cs => if hasPre n (c :: cs) then some 0 else (findSub n cs).map (· + 1)

/-- Python `needle in hay` (substring containment). -/
def hasSub (n h : List Char) : Bool :=
  (findSub n h).isSome

/-- Counting loop of Python `hay.count(needle)` for a non-empty needle
`m :: ms`: non-overlapping leftmost matches; after a match, skip its span.
The `Nat` argument is the number of characters still to skip. -/
def countAux (m : Char) (ms : List Char) : Nat → List Char → Nat
  | _, [] => 0
  | skip + 1, _ :: cs => countAux m ms skip cs
  | 0, c :: cs =>
    if hasPre (m :: ms) (c :: cs) then 1 + countAux m ms ms.length cs
    else countAux m ms 0 cs

/-- Python `hay.count(needle)`. -/
def countSub : List Char → List Char → Nat
  | [], h => h.length + 1
  | m :: ms, h => countAux m ms 0 h

example : countSub (("aa" : String)).toList (("aaaa" : String)).toList = 2 := by decide
example : findSub (("ab" : String)).toList (("xxab" : String)).toList = some 2 := by decide

/-- Add `d` to the counter entry for `k`, inserting at the end on a miss
(Python `Counter.__setitem__` insertion order). -/
def bump : List (List Char × ℚ) → List Char → ℚ → List (List Char × ℚ)
  | [], k, d => [(k, d)]
  | (k', v) :: rest, k, d =>
    if k' = k then (k', v + d) :: rest else (k', v) :: bump rest k d

/-- The unigram/bigram loop of `_extract_keywords`: returns the counter after
the unigram pass together with the bigram list (in encounter order). -/
def uniPass : List (List Char) → List (List Char × ℚ) →
    List (List Char × ℚ) × List (List Char)
  | [], freq => (freq, [])
  | w :: rest, freq =>
    if w.length < 2 then uniPass rest freq
    else
      let freq' := if STOP_WORDS.contains w then freq else bump freq w 1
      let bi : List (List Char) :=
        match rest with
        | [] => []
        | nw :: _ => if 2 ≤ nw.length then [w ++ ' ' :: nw] else []
      let done := uniPass rest freq'
      (done.1, bi ++ done.2)

/-- Stable insertion (descending by key) used to model Python's stable
`sorted(items, key=value, reverse=True)`: an element moves in front only of
strictly smaller keys, so equal keys keep insertion order. -/
def insByKey {α β : Type} [LinearOrder β] (key : α → β) :
    List α → α → List α
  | [], x => [x]
  | y :: ys, x => if key x ≤ key y then y :: insByKey key ys x else x :: y :: ys

def sortByKeyDesc {α β : Type} [LinearOrder β] (key : α → β) (l : List α) :
    List α :=
  l.foldl (insByKey key) []

/-- `LocalRAGMatcher._extract_keywords`. -/
def extractKeywords (text : List Char) (topN : Nat) : List (List Char × ℚ) :=
  let ws := words (cleanText text)
  let pass := uniPass ws []
  let freq := pass.2.foldl (fun f b => bump f b (1 / 2)) pass.1
  let freq := freq.map fun p =>
    if TECH_SKILLS.contains p.1 then (p.1, p.2 * 2) else p
  let top := (sortByKeyDesc Prod.snd freq).take topN
  match top with
  | [] => []
  | (_, m) :: _ => top.map fun p => (p.1, p.2 / m)

example :
    extractKeywords (("python" : String)).toList 40
      = [((("python" : String)).toList, 1)] := by
  norm_num +decide [extractKeywords, words, wordsAux, cleanText, charFilter,
    scanSub, scanAux, urlHit, emailHit, hasPre, nonSpaceAt, isSpc, keepChar,
    pyLower, uniPass, bump, sortByKeyDesc, insByKey, STOP_WORDS, TECH_SKILLS,
    unwords]

/-- `LocalRAGMatcher._extract_skills` (a Python set; modelled as the sublist
of the skill vocabulary present in the cleaned text, which is duplicate-free
because the vocabulary is). -/
def extractSkills (text : List Char) : List (List Char) :=
  TECH_SKILLS.filter fun sk => hasSub sk (cleanText text)

/-- Position bonus of `_calculate_keyword_match`. -/
def posBonus (pos : Nat) : ℚ :=
  if pos < 200 then 3 / 2 else if pos < 500 then 6 / 5 else 1

/-- `LocalRAGMatcher._calculate_keyword_match`.  `math.sqrt` forces real
numbers; everything else is exact rational arithmetic. -/
noncomputable def calculateKeywordMatch
    (resumeKeywords : List (List Char × ℚ)) (jobText : List Char) : ℝ :=
  if resumeKeywords = [] then 0
  else
    let c := cleanText jobText
    let totalWeight : ℚ := (resumeKeywords.map Prod.snd).sum
    let matchedWeight : ℝ :=
      (resumeKeywords.map fun kw =>
        if hasSub kw.1 c then
          ((kw.2 * posBonus ((findSub kw.1 c).getD 0) : ℚ) : ℝ) *
            Real.sqrt (min (countSub kw.1 c) 3 : Nat)
        else 0).sum
    if totalWeight = 0 then 0 else min (matchedWeight / (totalWeight : ℚ)) 1

/-- `LocalRAGMatcher._calculate_skill_match` (Jaccard over skill sets). -/
def calculateSkillMatch (resumeSkills : List (List Char)) (jobText : List Char) : ℚ :=
  if resumeSkills = [] then 0
  else
    let jobSkills := extractSkills jobText
    if jobSkills = [] then 0
    else
      let inter := (resumeSkills.filter fun s => jobSkills.contains s).length
      let uni :=
        (resumeSkills ++ jobSkills.filter fun s => !resumeSkills.contains s).length
      if uni = 0 then 0 else (inter : ℚ) / uni

/-- `LocalRAGMatcher._calculate_text_similarity` (Jaccard over stop-word
filtered token sets; `set(...)` is modelled by `dedup`). -/
def calculateTextSimilarity (t1 t2 : List Char) : ℚ :=
  let w1 := ((words (cleanText t1)).dedup).filter fun w => !STOP_WORDS.contains w
  let w2 := ((words (cleanText t2)).dedup).filter fun w => !STOP_WORDS.contains w
  if w1 = [] ∨ w2 = [] then 0
  else
    let inter := (w1.filter fun w => w2.contains w).length
    let uni := (w1 ++ w2.filter fun w => !w1.contains w).length
    if uni = 0 then 0 else (inter : ℚ) / uni

/-! # Data model (`src/app/models.py`)
Mongo documents; `ObjectId` is modelled as `Nat`, timestamps as `ℤ` in an
arbitrary time unit, Python floats as `ℚ`.  An `Option` field set to `none`
models an absent field (`_create_job` inserts with `exclude_none=True`);
Python-side `dict.get` defaults are applied where the source applies them. -/

def statusActive : List Char := (("active" : String)).toList
def statusExpired : List Char := (("expired" : String)).toList

structure JobDoc where
  oid : Nat
  adzuna_id : List Char
  requisition_id : List Char
  title : List Char
  description : List Char
  company_display_name : Option (List Char)
  location : Option (List Char)
  employment_type : Option (List Char)
  job_level : Option (List Char)
  salary_min : Option ℚ
  salary_max : Option ℚ
  category : Option (List Char)
  redirect_url : Option (List Char)
  status : List Char
  is_internship : Bool
  is_remote : Bool
  updated_at : ℤ
  expires_at : ℤ
  deriving DecidableEq

/-- `LocalRAGMatcher.match_resume_to_job`. -/
noncomputable def matchResumeToJob (resumeText : List Char) (job : JobDoc) : ℝ :=
  let resumeKeywords := extractKeywords resumeText 40
  let resumeSkills := extractSkills resumeText
  let jobFullText := job.title ++ ' ' :: job.title ++ ' ' :: job.description
      ++ ' ' :: job.company_display_name.getD []
  let keywordScore := calculateKeywordMatch resumeKeywords jobFullText
  let skillScore := calculateSkillMatch resumeSkills jobFullText
  let textSimScore := calculateTextSimilarity (resumeText.take 1000) (jobFullText.take 1000)
  let titleMatch := calculateKeywordMatch (resumeKeywords.take 10) job.title
  min (keywordScore * 0.35 + (skillScore : ℝ) * 0.35 + (textSimScore : ℝ) * 0.15
    + titleMatch * 0.15) 1

/-! # Remote relevance adapter: `CTSClient.search_jobs_with_resume`
(`src/app/integrations/cts.py`, lines 341-427).

The method builds a search request and executes ONE `search_jobs` RPC — it
carries no `@retry` decorator (unlike `create_job`/`update_job`/`delete_job`).
`except GoogleAPIError: return []` is the only handler, so a failed RPC and a
zero-match success both come back as `[]`.  The RPC outcome is an oracle
(`Except`); the `.error` constructor carries the Google error class. -/

inductive GoogleAPIErr
  | deadlineExceeded
  | serviceUnavailable
  | internalServerError
  | notFound
  | alreadyExists
  | permissionDenied
  | other
  deriving DecidableEq

/-- One element of `response.matching_jobs`.  The source stores
`matching_job.job_title_snippet or 0.0` under `"relevance_score"` (a string
snippet, or the float `0.0` when the snippet is falsy); no claim depends on
that value, so it is abstracted into the numeric payload `snippetScore`. -/
structure CtsMatchingJob where
  name : List Char
  requisition_id : List Char
  title : List Char
  company : List Char
  description : List Char
  application_uris : List (List Char)
  snippetScore : ℝ

structure CtsResult where
  cts_job_name : List Char
  requisition_id : List Char
  title : List Char
  company : List Char
  description : List Char
  relevance_score : ℝ
  application_urls : List (List Char)

/-- `CTSClient.search_jobs_with_resume`, as a function of the RPC outcome. -/
def searchJobsWithResume (rpc : Except GoogleAPIErr (List CtsMatchingJob)) :
    List CtsResult :=
  match rpc with
  | .ok mjobs =>
    mjobs.map fun m =>
      { cts_job_name := m.name, requisition_id := m.requisition_id,
        title := m.title, company := m.company, description := m.description,
        relevance_score := m.snippetScore, application_urls := m.application_uris }
  | .error _ => []

/-! # Matching orchestrator: `MatchingService`
(`src/app/services/matching_service_mongo.py`, lines 262-562). -/

/-- `MatchingService._generate_cache_key`: the SHA-256 of the f-string
`f"{resume_text}:{location}:{internship_only}:{job_level}:{stipend_min}"`.
The hash itself is a parameter; `cacheKeyString` is the hashed preimage.
Python's `str()` of the filter values: `None` renders as `None`, booleans as
`True`/`False`; the float rendering is modelled by `ℚ`'s `toString` (the exact
digits differ from CPython but no claim distinguishes two numeric values). -/
def pyStrOptStr : Option (List Char) → List Char
  | none => (("None" : String)).toList
  | some s => s

def pyStrOptBool : Option Bool → List Char
  | none => (("None" : String)).toList
  | some true => (("True" : String)).toList
  | some false => (("False" : String)).toList

def pyStrOptQ : Option ℚ → List Char
  | none => (("None" : String)).toList
  | some q => (toString q).toList

def cacheKeyString (resumeText : List Char) (location : Option (List Char))
    (internshipOnly : Option Bool) (jobLevel : Option (List Char))
    (stipendMin : Option ℚ) : List Char :=
  resumeText ++ ':' :: pyStrOptStr location ++ ':' :: pyStrOptBool internshipOnly
    ++ ':' :: pyStrOptStr jobLevel ++ ':' :: pyStrOptQ stipendMin

def generateCacheKey (sha256 : List Char → List Char) (resumeText : List Char)
    (location : Option (List Char)) (internshipOnly : Option Bool)
    (jobLevel : Option (List Char)) (stipendMin : Option ℚ) : List Char :=
  sha256 (cacheKeyString resumeText location internshipOnly jobLevel stipendMin)

/-- Python dict built by successive insertions, read with `.get(k, 0.0)`:
a later insertion for the same key overwrites, hence the LAST pair wins. -/
noncomputable def pyDictGet (l : List (Nat × ℝ)) (k : Nat) : ℝ :=
  (((l.filter fun p => p.1 == k).getLast?).map Prod.snd).getD 0

/-- `MatchingService._apply_filters`.  Python truthiness is preserved: an
empty-string `job_level` applies no filter, a salary of `0` fails the
`j.get(...) and ...` guard, `internship_only=None/False` applies no filter. -/
def applyFilters (jobs : List JobDoc) (jobLevel : Option (List Char))
    (stipendMin : Option ℚ) (internshipOnly : Option Bool) : List JobDoc :=
  let f1 :=
    match jobLevel with
    | none => jobs
    | some lvl =>
      if lvl.isEmpty then jobs
      else jobs.filter fun j => j.job_level == some lvl
  let f2 :=
    match stipendMin with
    | none => f1
    | some m =>
      f1.filter fun j =>
        (match j.salary_min with
          | none => false
          | some v => !(v == 0) && decide (m ≤ v)) ||
        (match j.salary_max with
          | none => false
          | some v => !(v == 0) && decide (m ≤ v))
  match internshipOnly with
  | some true => f2.filter fun j => j.is_internship
  | _ => f2

structure JobMatchResponse where
  job_id : Nat
  adzuna_id : List Char
  title : List Char
  company : List Char
  location : Option (List Char)
  employment_type : Option (List Char)
  salary_min : Option ℚ
  salary_max : Option ℚ
  description : List Char
  redirect_url : Option (List Char)
  relevance_score : ℝ
  is_internship : Bool

/-- `MatchingService._build_match_responses` (truncated description, company
`or "Unknown"` truthiness, final stable sort by score descending). -/
noncomputable def buildMatchResponses (jobs : List JobDoc)
    (scoreMap : List (Nat × ℝ)) : List JobMatchResponse :=
  let responses := jobs.map fun job =>
    { job_id := job.oid
      adzuna_id := job.adzuna_id
      title := job.title
      company :=
        match job.company_display_name with
        | some c => if c.isEmpty then (("Unknown" : String)).toList else c
        | none => (("Unknown" : String)).toList
      location := job.location
      employment_type := job.employment_type
      salary_min := job.salary_min
      salary_max := job.salary_max
      description :=
        if 500 < job.description.length then
          job.description.take 500 ++ (("..." : String)).toList
        else job.description
      redirect_url := job.redirect_url
      relevance_score := pyDictGet scoreMap job.oid
      is_internship := job.is_internship : JobMatchResponse }
  sortByKeyDesc JobMatchResponse.relevance_score responses

/-- Candidate filter of the local-RAG fallback query
(`{"status": "active"}` plus optional case-insensitive location substring and
`is_internship` constraints).  The `$regex` is modelled as a literal
case-insensitive substring search; a missing `location` field never matches. -/
def localQueryOk (location : Option (List Char)) (internshipOnly : Option Bool)
    (j : JobDoc) : Bool :=
  j.status == statusActive &&
    (match location with
      | none => true
      | some loc =>
        match j.location with
        | none => false
        | some fieldVal => hasSub (loc.map pyLower) (fieldVal.map pyLower)) &&
    (match internshipOnly with
      | some true => j.is_internship
      | _ => true)

/-- The local-RAG fallback block of `match_resume_to_jobs` (lines 406-441):
candidate pool oversampled to `3 × max_results`, scored, stably sorted
descending, thresholded at `score > 0.1`, truncated to `max_results`.
Returns the `jobs` list and the `score_map` pairs. -/
noncomputable def localRagPath (resumeText : List Char)
    (location : Option (List Char)) (internshipOnly : Option Bool)
    (maxResults : Nat) (store : List JobDoc) :
    List JobDoc × List (Nat × ℝ) :=
  let candidates := (store.filter (localQueryOk location internshipOnly)).take (maxResults * 3)
  let scored := candidates.map fun j => (j, matchResumeToJob resumeText j)
  let scored := sortByKeyDesc Prod.snd scored
  let scored := scored.filter fun p => decide ((0.1 : ℝ) < p.2)
  let scored := scored.take maxResults
  (scored.map Prod.fst, scored.map fun p => (p.1.oid, p.2))

/-- The CTS-success block of `match_resume_to_jobs` (lines 384-399): hydrate
active records by requisition id (Mongo returns them in store order, at most
`len(requisition_ids)` of them) and build the score map with a first-match
lookup per CTS result. -/
def ctsMapPath (ctsResults : List CtsResult) (store : List JobDoc) :
    List JobDoc × List (Nat × ℝ) :=
  let reqIds := ctsResults.map CtsResult.requisition_id
  let jobs := (store.filter fun j =>
    reqIds.contains j.requisition_id && j.status == statusActive).take reqIds.length
  let smap := ctsResults.filterMap fun r =>
    (jobs.find? fun j => j.requisition_id == r.requisition_id).map fun j =>
      (j.oid, r.relevance_score)
  (jobs, smap)

/-- `MatchingService.match_resume_to_jobs`.  Oracles: `cached` is the cache
lookup outcome (`none` = no unexpired entry), `remote` is the outcome of
`self.cts_client.search_jobs_with_resume(...)` (`.error` = that call raised;
recall it already swallows `GoogleAPIError` into `.ok []`), `store` is the
jobs collection.  The `try` block also covers the CTS hydration, but the
hydration is pure here, so only the remote outcome can select the fallback.
The cache write (lines 449-456) has no effect on the returned value and is
not modelled. -/
noncomputable def matchResumeToJobs (resumeText : List Char)
    (location : Option (List Char)) (internshipOnly : Option Bool)
    (jobLevel : Option (List Char)) (stipendMin : Option ℚ) (maxResults : Nat)
    (cached : Option (List (Nat × ℝ)))
    (remote : Except Unit (List CtsResult))
    (store : List JobDoc) : List JobMatchResponse :=
  let cachedResults := cached.getD []
  if !cachedResults.isEmpty then
    let ids := cachedResults.map Prod.fst
    let jobs := (store.filter fun j =>
      ids.contains j.oid && j.status == statusActive).take ids.length
    buildMatchResponses jobs cachedResults
  else
    let path :=
      match remote with
      | .ok ctsResults =>
        if ctsResults.isEmpty then
          localRagPath resumeText location internshipOnly maxResults store
        else ctsMapPath ctsResults store
      | .error _ => localRagPath resumeText location internshipOnly maxResults store
    let filtered := applyFilters path.1 jobLevel stipendMin internshipOnly
    buildMatchResponses filtered path.2

/-! # Source client: `AdzunaClient.fetch_all_jobs`
(`src/app/integrations/adzuna.py`, lines 101-157).

The page oracle `pages` gives each `search_jobs(page=q)` outcome; job
payloads are opaque (`Nat`).  The loop starts at page 1, stops on an empty
page, on `page * results_per_page >= count` (the per-request capacity, NOT
the number of postings actually accumulated), on `page > max_pages`, or on
any exception — returning whatever was gathered so far in every case. -/

structure AdzunaPage where
  results : List Nat
  count : Nat
  deriving DecidableEq

/-- The `while page <= max_pages` loop; `fuel` is the number of pages still
allowed, `page` the next page number. -/
def fetchGo (pages : Nat → Except Unit AdzunaPage) (rpp : Nat) :
    Nat → Nat → List Nat → List Nat
  | 0, _, acc => acc
  | fuel + 1, page, acc =>
    match pages page with
    | .error _ => acc
    | .ok r =>
      if r.results.isEmpty then acc
      else
        let acc' := acc ++ r.results
        if r.count ≤ page * rpp then acc'
        else fetchGo pages rpp fuel (page + 1) acc'

def fetchAllJobs (pages : Nat → Except Unit AdzunaPage) (rpp maxPages : Nat) :
    List Nat :=
  fetchGo pages rpp maxPages 1 []

/-! # Sync orchestrator: `JobService.sync_jobs_from_adzuna`
(`src/app/services/job_service_mongo.py`, lines 29-251).

Each fetched posting is processed inside a per-item `try`: parse, look up by
`adzuna_id`, create or update, increment the `created`/`updated` counter, then
upsert the job-type document; any exception in the item lands in the `except`
which increments `failed`.  Per-item oracles say which step raises:
`parsed = none` models `parse_job_data` raising, `upsertOk = false` models the
lookup/insert/update raising (before the counter increment), and
`typeSaveOk = false` models the job-type upsert raising (AFTER the counter
increment).  `t` is the wall clock at the item, `oid`/`reqId` stand for the
generated ObjectId and requisition id.  After the loop,
`_mark_expired_jobs` runs at time `tSweep`.  Runs whose outer `try` fails are
marked `"failed"` and re-raise; the embedding covers completed runs. -/

structure ParsedJob where
  adzuna_id : List Char
  title : List Char
  description : List Char
  company_display_name : Option (List Char)
  location : Option (List Char)
  employment_type : List Char
  job_level : List Char
  salary_min : Option ℚ
  salary_max : Option ℚ
  category : Option (List Char)
  redirect_url : Option (List Char)
  is_internship : Bool
  is_remote : Bool
  deriving DecidableEq

structure FetchedItem where
  parsed : Option ParsedJob
  upsertOk : Bool
  typeSaveOk : Bool
  oid : Nat
  reqId : List Char
  t : ℤ
  deriving DecidableEq

/-- `JobService._create_job` (fields of the inserted document that the model
tracks; `E` is `settings.JOB_EXPIRY_DAYS` in clock units). -/
def createJob (t E : ℤ) (p : ParsedJob) (oid : Nat) (reqId : List Char) : JobDoc :=
  { oid := oid
    adzuna_id := p.adzuna_id
    requisition_id := reqId
    title := p.title
    description := p.description
    company_display_name := p.company_display_name
    location := p.location
    employment_type := some p.employment_type
    job_level := some p.job_level
    salary_min := p.salary_min
    salary_max := p.salary_max
    category := p.category
    redirect_url := p.redirect_url
    status := statusActive
    is_internship := p.is_internship
    is_remote := p.is_remote
    updated_at := t
    expires_at := t + E }

/-- `JobService._update_job`: the `$set` document applied to the existing
record. -/
def updateJob (t E : ℤ) (p : ParsedJob) (j : JobDoc) : JobDoc :=
  { j with
    title := p.title
    description := p.description
    company_display_name := p.company_display_name
    location := p.location
    employment_type := some p.employment_type
    job_level := some p.job_level
    salary_min := p.salary_min
    salary_max := p.salary_max
    category := p.category
    redirect_url := p.redirect_url
    is_internship := p.is_internship
    is_remote := p.is_remote
    status := statusActive
    expires_at := t + E
    updated_at := t }

/-- Mongo `update_one`: modify the first document matching the `adzuna_id`. -/
def updFirst (aid : List Char) (f : JobDoc → JobDoc) : List JobDoc → List JobDoc
  | [] => []
  | j :: rest => if j.adzuna_id == aid then f j :: rest else j :: updFirst aid f rest

/-- `JobService._mark_expired_jobs` at wall-clock `now`: flip every
`status == "active"` document with `expires_at < now` to `"expired"`, and
report the modified count. -/
def markExpiredJobs (now : ℤ) (store : List JobDoc) : List JobDoc × Nat :=
  ((store.map fun j =>
      if j.status == statusActive && decide (j.expires_at < now) then
        { j with status := statusExpired }
      else j),
    (store.filter fun j =>
      j.status == statusActive && decide (j.expires_at < now)).length)

structure SyncState where
  store : List JobDoc
  created : Nat
  updated : Nat
  failed : Nat
  deriving DecidableEq

/-- Store effect of a successful lookup-then-create-or-update for one
posting: update the existing doc in place, or append the new one. -/
def upsertStore (E : ℤ) (item : FetchedItem) (p : ParsedJob)
    (store : List JobDoc) : List JobDoc :=
  if store.any fun j => j.adzuna_id == p.adzuna_id then
    updFirst p.adzuna_id (updateJob item.t E p) store
  else store ++ [createJob item.t E p item.oid item.reqId]

/-- Is the job-type upsert reached?  `type_to_save = search_query or
category or title` with Python truthiness, then `if type_to_save:`. -/
def typeAttempted (searchQuery : Option (List Char)) (p : ParsedJob) : Bool :=
  !(searchQuery.getD []).isEmpty || !(p.category.getD []).isEmpty ||
    !p.title.isEmpty

/-- One iteration of the `for job_data in jobs_data` loop. -/
def processItem (E : ℤ) (searchQuery : Option (List Char)) (acc : SyncState)
    (item : FetchedItem) : SyncState :=
  match item.parsed with
  | none => { acc with failed := acc.failed + 1 }
  | some p =>
    if !item.upsertOk then { acc with failed := acc.failed + 1 }
    else
      let wasUpdate := acc.store.any fun j => j.adzuna_id == p.adzuna_id
      let acc' : SyncState :=
        { store := upsertStore E item p acc.store
          created := if wasUpdate then acc.created else acc.created + 1
          updated := if wasUpdate then acc.updated + 1 else acc.updated
          failed := acc.failed }
      if typeAttempted searchQuery p && !item.typeSaveOk then
        { acc' with failed := acc'.failed + 1 }
      else acc'

structure SyncRunResult where
  jobs_fetched : Nat
  jobs_created : Nat
  jobs_updated : Nat
  jobs_failed : Nat
  jobs_deleted : Nat
  store : List JobDoc
  deriving DecidableEq

/-- `JobService.sync_jobs_from_adzuna`, for a run whose outer `try` completes
(status `"completed"`): process every fetched item, then run the staleness
sweep at `tSweep`, then record the aggregate counts. -/
def syncJobsFromAdzuna (E : ℤ) (searchQuery : Option (List Char))
    (items : List FetchedItem) (store : List JobDoc) (tSweep : ℤ) :
    SyncRunResult :=
  let s := items.foldl (processItem E searchQuery) ⟨store, 0, 0, 0⟩
  let swept := markExpiredJobs tSweep s.store
  { jobs_fetched := items.length
    jobs_created := s.created
    jobs_updated := s.updated
    jobs_failed := s.failed
    jobs_deleted := swept.2
    store := swept.1 }

/-! # Claim C8: determinism of the local scorer -/

/-! # Text-layer lemmas for the claims about `_clean_text`

`wordsAux` facts (the accumulator holds the reversed word in progress),
`unwords`/`words` round trips, character classifications, and the generic
facts about the two scan-and-skip regex substitutions. -/

theorem wordsAux_spacefree :
    ∀ (l acc : List Char), (∀ c ∈ acc, isSpc c = false) →
      ∀ w ∈ wordsAux l acc, ∀ c ∈ w, isSpc c = false := by
  intro l
  induction l with
  | nil =>
    intro acc hacc w hw
    unfold wordsAux at hw
    split at hw
    · simp at hw
    · simp only [List.mem_singleton] at hw
      subst hw
      intro c hc
      exact hacc c (List.mem_reverse.mp hc)
  | cons x xs ih =>
    intro acc hacc w hw
    unfold wordsAux at hw
    by_cases hx : isSpc x = true
    · rw [if_pos hx] at hw
      split at hw
      · exact ih [] (by simp) w hw
      · rcases List.mem_cons.mp hw with rfl | hw'
        · intro c hc
          exact hacc c (List.mem_reverse.mp hc)
        · exact ih [] (by simp) w hw'
    · rw [if_neg hx] at hw
      refine ih (x :: acc) ?_ w hw
      intro c hc
      rcases List.mem_cons.mp hc with rfl | hc'
      · exact Bool.not_eq_true _ ▸ hx
      · exact hacc c hc'

theorem wordsAux_ne_nil :
    ∀ (l acc : List Char), ∀ w ∈ wordsAux l acc, w ≠ [] := by
  intro l
  induction l with
  | nil =>
    intro acc w hw
    unfold wordsAux at hw
    split at hw
    · simp at hw
    · simp only [List.mem_singleton] at hw
      subst hw
      simpa [List.reverse_eq_nil_iff] using by
        rename_i h
        simpa [List.isEmpty_iff] using h
  | cons x xs ih =>
    intro acc w hw
    unfold wordsAux at hw
    by_cases hx : isSpc x = true
    · rw [if_pos hx] at hw
      split at hw
      · exact ih [] w hw
      · rcases List.mem_cons.mp hw with rfl | hw'
        · simpa [List.reverse_eq_nil_iff] using by
            rename_i h
            simpa [List.isEmpty_iff] using h
        · exact ih [] w hw'
    · rw [if_neg hx] at hw
      exact ih (x :: acc) w hw

theorem words_spacefree (l : List Char) :
    ∀ w ∈ words l, ∀ c ∈ w, isSpc c = false :=
  wordsAux_spacefree l [] (by simp)

theorem words_ne_nil (l : List Char) : ∀ w ∈ words l, w ≠ [] :=
  wordsAux_ne_nil l []

/-- Occurrence of `p` as a contiguous substring of `l`. -/
def Occ (p l : List Char) : Prop :=
  ∃ a b, l = a ++ p ++ b

theorem occ_trans {p q l : List Char} (h1 : Occ p q) (h2 : Occ q l) : Occ p l := by
  obtain ⟨a, b, rfl⟩ := h1
  obtain ⟨a', b', rfl⟩ := h2
  exact ⟨a' ++ a, b ++ b', by simp⟩

theorem occ_nil (l : List Char) : Occ [] l :=
  ⟨[], l, by simp⟩

theorem occ_cons {p : List Char} {x : Char} {u : List Char}
    (h : Occ p (x :: u)) :
    (∃ b, x :: u = p ++ b) ∨ Occ p u := by
  obtain ⟨a, b, hab⟩ := h
  cases a with
  | nil => exact Or.inl ⟨b, by simpa using hab⟩
  | cons y a' =>
    simp only [List.cons_append, List.cons.injEq] at hab
    exact Or.inr ⟨a', b, hab.2⟩

theorem occ_cons_of_occ {p : List Char} {x : Char} {u : List Char}
    (h : Occ p u) : Occ p (x :: u) := by
  obtain ⟨a, b, rfl⟩ := h
  exact ⟨x :: a, b, rfl⟩

theorem wordsAux_occOf :
    ∀ (l acc : List Char), ∀ w ∈ wordsAux l acc, Occ w (acc.reverse ++ l) := by
  intro l
  induction l with
  | nil =>
    intro acc w hw
    unfold wordsAux at hw
    split at hw
    · simp at hw
    · simp only [List.mem_singleton] at hw
      subst hw
      exact ⟨[], [], by simp⟩
  | cons x xs ih =>
    intro acc w hw
    unfold wordsAux at hw
    by_cases hx : isSpc x = true
    · rw [if_pos hx] at hw
      have htail : w ∈ wordsAux xs [] → Occ w (acc.reverse ++ x :: xs) := by
        intro hw'
        have := ih [] w hw'
        simp only [List.reverse_nil, List.nil_append] at this
        obtain ⟨a, b, rfl⟩ := this
        exact ⟨acc.reverse ++ x :: a, b, by simp⟩
      split at hw
      · exact htail hw
      · rcases List.mem_cons.mp hw with rfl | hw'
        · exact ⟨[], x :: xs, by simp⟩
        · exact htail hw'
    · rw [if_neg hx] at hw
      have := ih (x :: acc) w hw
      simpa using this

theorem words_occOf (l : List Char) : ∀ w ∈ words l, Occ w l := by
  intro w hw
  simpa using wordsAux_occOf l [] w hw

theorem words_sub_chars (l : List Char) :
    ∀ w ∈ words l, ∀ c ∈ w, c ∈ l := by
  intro w hw c hc
  obtain ⟨a, b, rfl⟩ := words_occOf l w hw
  simp [hc]

theorem mem_unwords {c : Char} :
    ∀ {ws : List (List Char)}, c ∈ unwords ws → c = ' ' ∨ ∃ w ∈ ws, c ∈ w := by
  intro ws
  induction ws with
  | nil => simp [unwords]
  | cons w vs ih =>
    intro hc
    cases vs with
    | nil =>
      simp only [unwords] at hc
      exact Or.inr ⟨w, by simp, hc⟩
    | cons v vs' =>
      simp only [unwords, List.mem_append, List.mem_cons] at hc
      rcases hc with h | h | h
      · exact Or.inr ⟨w, by simp, h⟩
      · exact Or.inl h
      · rcases ih h with h' | ⟨u, hu, hcu⟩
        · exact Or.inl h'
        · exact Or.inr ⟨u, List.mem_cons_of_mem _ hu, hcu⟩

theorem mem_insByKey {α β : Type} [LinearOrder β] (key : α → β) (l : List α)
    (x y : α) : y ∈ insByKey key l x ↔ y = x ∨ y ∈ l := by
  induction l with
  | nil => simp [insByKey]
  | cons z zs ih =>
    unfold insByKey
    split
    · simp only [List.mem_cons, ih]
      tauto
    · simp [List.mem_cons]

theorem mem_sortByKeyDesc {α β : Type} [LinearOrder β] (key : α → β)
    (l : List α) (y : α) : y ∈ sortByKeyDesc key l ↔ y ∈ l := by
  suffices h : ∀ acc, y ∈ l.foldl (insByKey key) acc ↔ y ∈ acc ∨ y ∈ l by
    simpa [sortByKeyDesc] using h []
  induction l with
  | nil => simp
  | cons z zs ih =>
    intro acc
    simp only [List.foldl_cons, ih, mem_insByKey, List.mem_cons]
    tauto

theorem applyFilters_subset {jobs : List JobDoc} {jobLevel : Option (List Char)}
    {stipendMin : Option ℚ} {internshipOnly : Option Bool} {j : JobDoc}
    (hj : j ∈ applyFilters jobs jobLevel stipendMin internshipOnly) : j ∈ jobs := by
  unfold applyFilters at hj
  have step :
      ∀ (l : List JobDoc) (x : JobDoc) (pred : JobDoc → Bool),
        x ∈ l.filter pred → x ∈ l := fun l x pred h => (List.mem_filter.mp h).1
  rcases internshipOnly with _ | b
  · rcases stipendMin with _ | m
    · rcases jobLevel with _ | lvl
      · exact hj
      · simp only at hj
        split at hj
        · exact hj
        · exact step _ _ _ hj
    · simp only at hj
      have hj' := step _ _ _ hj
      rcases jobLevel with _ | lvl
      · exact hj'
      · simp only at hj'
        split at hj'
        · exact hj'
        · exact step _ _ _ hj'
  · cases b
    · rcases stipendMin with _ | m
      · rcases jobLevel with _ | lvl
        · exact hj
        · simp only at hj
          split at hj
          · exact hj
          · exact step _ _ _ hj
      · simp only at hj
        have hj' := step _ _ _ hj
        rcases jobLevel with _ | lvl
        · exact hj'
        · simp only at hj'
          split at hj'
          · exact hj'
          · exact step _ _ _ hj'
    · simp only at hj
      have hj0 := step _ _ _ hj
      rcases stipendMin with _ | m
      · rcases jobLevel with _ | lvl
        · exact hj0
        · simp only at hj0
          split at hj0
          · exact hj0
          · exact step _ _ _ hj0
      · simp only at hj0
        have hj' := step _ _ _ hj0
        rcases jobLevel with _ | lvl
        · exact hj'
        · simp only at hj'
          split at hj'
          · exact hj'
          · exact step _ _ _ hj'

theorem getLast?_mem' {α : Type} {l : List α} {a : α} (h : l.getLast? = some a) :
    a ∈ l := by
  induction l with
  | nil => simp at h
  | cons x xs ih =>
    cases xs with
    | nil =>
      simp [List.getLast?] at h
      simp [h]
    | cons y ys =>
      rw [List.getLast?_cons_cons] at h
      exact List.mem_cons_of_mem _ (ih h)

/-- Every score pair produced by the local fallback is strictly above the
`0.1` threshold. -/
theorem localRagPath_scores {resumeText : List Char}
    {location : Option (List Char)} {internshipOnly : Option Bool}
    {maxResults : Nat} {store : List JobDoc} {pr : Nat × ℝ}
    (hpr : pr ∈ (localRagPath resumeText location internshipOnly maxResults store).2) :
    (0.1 : ℝ) < pr.2 := by
  unfold localRagPath at hpr
  simp only [List.mem_map] at hpr
  obtain ⟨q, hq, hqe⟩ := hpr
  have hq' := List.mem_of_mem_take hq
  have := (List.mem_filter.mp hq').2
  subst hqe
  simpa using this

/-- Every job of the local fallback's `jobs` list has its own score pair in
the fallback's score map. -/
theorem localRagPath_pair {resumeText : List Char}
    {location : Option (List Char)} {internshipOnly : Option Bool}
    {maxResults : Nat} {store : List JobDoc} {j : JobDoc}
    (hj : j ∈ (localRagPath resumeText location internshipOnly maxResults store).1) :
    ∃ v, (j.oid, v) ∈ (localRagPath resumeText location internshipOnly maxResults store).2 := by
  unfold localRagPath at hj ⊢
  simp only [List.mem_map] at hj ⊢
  obtain ⟨q, hq, hqe⟩ := hj
  exact ⟨q.2, q, hq, by rw [hqe]⟩

/-- The dictionary lookup on the fallback score map returns one of its
values. -/
theorem pyDictGet_mem {smap : List (Nat × ℝ)} {k : Nat} {v : ℝ}
    (hv : (k, v) ∈ smap) : ∃ q ∈ smap, q.1 = k ∧ pyDictGet smap k = q.2 := by
  unfold pyDictGet
  have hne : smap.filter (fun p => p.1 == k) ≠ [] :=
    List.ne_nil_of_mem (List.mem_filter.mpr ⟨hv, by simp⟩)
  obtain ⟨q, hq⟩ := Option.ne_none_iff_exists'.mp
    (mt List.getLast?_eq_none_iff.mp hne)
  have hqm := getLast?_mem' hq
  exact ⟨q, (List.mem_filter.mp hqm).1,
    by simpa using (List.mem_filter.mp hqm).2, by simp [hq]⟩

/-- C3.  With a cache miss, whenever the remote search raises (`.error`) or
returns the empty list, `match_resume_to_jobs` returns normally (no exception
propagates) with exactly the Local-RAG fallback result — candidates active
and coarse-filtered, oversampled to `3 × max_results`, thresholded at
`score > 0.1` — and every returned response carries a relevance score
strictly above `0.1`. -/
theorem c3_fallback (resumeText : List Char) (location : Option (List Char))
    (internshipOnly : Option Bool) (jobLevel : Option (List Char))
    (stipendMin : Option ℚ) (maxResults : Nat)
    (cached : Option (List (Nat × ℝ))) (remote : Except Unit (List CtsResult))
    (store : List JobDoc)
    (hcache : cached = none ∨ cached = some [])
    (hrem : remote = .error () ∨ remote = .ok []) :
    matchResumeToJobs resumeText location internshipOnly jobLevel stipendMin
        maxResults cached remote store
      = buildMatchResponses
          (applyFilters
            (localRagPath resumeText location internshipOnly maxResults store).1
            jobLevel stipendMin internshipOnly)
          (localRagPath resumeText location internshipOnly maxResults store).2
    ∧ ∀ resp ∈ matchResumeToJobs resumeText location internshipOnly jobLevel
        stipendMin maxResults cached remote store,
        (0.1 : ℝ) < resp.relevance_score := by
  have hmain :
      matchResumeToJobs resumeText location internshipOnly jobLevel stipendMin
          maxResults cached remote store
        = buildMatchResponses
            (applyFilters
              (localRagPath resumeText location internshipOnly maxResults store).1
              jobLevel stipendMin internshipOnly)
            (localRagPath resumeText location internshipOnly maxResults store).2 := by
    rcases hcache with rfl | rfl <;> rcases hrem with rfl | rfl <;>
      simp [matchResumeToJobs]
  refine ⟨hmain, ?_⟩
  intro resp hresp
  rw [hmain] at hresp
  unfold buildMatchResponses at hresp
  rw [mem_sortByKeyDesc] at hresp
  simp only [List.mem_map] at hresp
  obtain ⟨job, hjob, hresp_eq⟩ := hresp
  have hj1 := applyFilters_subset hjob
  obtain ⟨v, hv⟩ := localRagPath_pair hj1
  obtain ⟨q, hq, hqk, hqv⟩ := pyDictGet_mem hv
  have hscore := localRagPath_scores hq
  subst hresp_eq
  simpa [hqv] using hscore

/-- C3 witness: the fallback contract at a concrete cache-missing, remote-
failing input (empty store, so the fallback result is empty and the score
bound is vacuous). -/
theorem c3_witness :
    matchResumeToJobs [] none (some false) none none 5 none (.error ()) []
      = buildMatchResponses
          (applyFilters (localRagPath [] none (some false) 5 []).1
            none none (some false))
          (localRagPath [] none (some false) 5 []).2
    ∧ ∀ resp ∈ matchResumeToJobs [] none (some false) none none 5 none
        (.error ()) [], (0.1 : ℝ) < resp.relevance_score :=
  c3_fallback [] none (some false) none none 5 none (.error ()) []
    (Or.inl rfl) (Or.inl rfl)

theorem wordsAux_token (l : List Char) :
    ∀ (w acc : List Char), (∀ c ∈ w, isSpc c = false) →
      wordsAux (w ++ l) acc = wordsAux l (w.reverse ++ acc) := by
  intro w
  induction w with
  | nil => simp
  | cons c w' ih =>
    intro acc hw
    have hc : isSpc c = false := hw c (by simp)
    simp only [List.cons_append, wordsAux, hc, Bool.false_eq_true, if_false]
    have := ih (c :: acc) (fun x hx => hw x (List.mem_cons_of_mem _ hx))
    simpa using this

theorem words_unwords :
    ∀ (ws : List (List Char)),
      (∀ w ∈ ws, w ≠ [] ∧ ∀ c ∈ w, isSpc c = false) →
      words (unwords ws) = ws := by
  intro ws
  induction ws with
  | nil => intro _; rfl
  | cons w vs ih =>
    intro h
    obtain ⟨hne, hsf⟩ := h w (by simp)
    cases vs with
    | nil =>
      show wordsAux w [] = [w]
      have := wordsAux_token [] w [] hsf
      simp only [List.append_nil] at this
      rw [this]
      unfold wordsAux
      have : (w.reverse ++ []).isEmpty = false := by
        simp [List.isEmpty_iff, hne]
      rw [if_neg (by simp [this, List.isEmpty_iff] at this ⊢; simpa using hne)]
      simp
    | cons v vs' =>
      show wordsAux (w ++ ' ' :: unwords (v :: vs')) [] = w :: (v :: vs')
      rw [wordsAux_token _ w [] hsf]
      have hsp : isSpc ' ' = true := by decide
      simp only [wordsAux, hsp, if_true]
      have hone : (w.reverse ++ [] : List Char).isEmpty = false := by
        simp [List.isEmpty_iff, hne]
      rw [if_neg (by simp [List.isEmpty_iff]; simpa using hne)]
      have := ih (fun u hu => h u (List.mem_cons_of_mem _ hu))
      simp only [words] at this
      simp [this]

/-! Character classification facts. -/

theorem pyLower_fix {c : Char} (h : keepChar c = true ∨ c = ' ') :
    pyLower c = c := by
  unfold pyLower
  split
  · rename_i hAZ
    exfalso
    rcases h with hk | rfl
    · unfold keepChar at hk
      simp only [Bool.or_eq_true, decide_eq_true_eq, beq_iff_eq] at hk
      rcases hk with ((((⟨h1, _⟩ | ⟨_, h2⟩) | rfl) | rfl) | rfl) | rfl
      · exact absurd (le_trans h1 hAZ.2) (by decide)
      · exact absurd (le_trans hAZ.1 h2) (by decide)
      · exact absurd hAZ.1 (by decide)
      · exact absurd hAZ.1 (by decide)
      · exact absurd hAZ.1 (by decide)
      · exact absurd hAZ.1 (by decide)
    · exact absurd hAZ.1 (by decide)
  · rfl

theorem charFilter_chars {l : List Char} {c : Char} (hc : c ∈ charFilter l) :
    keepChar c = true ∨ isSpc c = true := by
  unfold charFilter at hc
  simp only [List.mem_map] at hc
  obtain ⟨y, _, hy⟩ := hc
  by_cases h : (keepChar y || isSpc y) = true
  · rw [if_pos h] at hy
    subst hy
    simpa using h
  · rw [if_neg h] at hy
    subst hy
    exact Or.inr (by decide)

theorem at_not_mem_charFilter (l : List Char) : '@' ∉ charFilter l := by
  intro hc
  rcases charFilter_chars hc with h | h <;> simp [keepChar, isSpc] at h

/-! `hasPre` facts. -/

theorem hasPre_iff {p : List Char} :
    ∀ {l : List Char}, hasPre p l = true ↔ ∃ r, l = p ++ r := by
  induction p with
  | nil => intro l; simp [hasPre]
  | cons q ps ih =>
    intro l
    cases l with
    | nil => simp [hasPre]
    | cons c cs =>
      simp only [hasPre, Bool.and_eq_true, beq_iff_eq, ih]
      constructor
      · rintro ⟨rfl, r, rfl⟩
        exact ⟨r, rfl⟩
      · rintro ⟨r, hr⟩
        simp only [List.cons_append, List.cons.injEq] at hr
        exact ⟨hr.1.symm, r, hr.2⟩

theorem hasPre_append_space {p : List Char} (hp : ∀ c ∈ p, isSpc c = false) :
    ∀ (l b : List Char), hasPre p (l ++ ' ' :: b) = hasPre p l := by
  induction p with
  | nil => intro l b; rfl
  | cons q ps ih =>
    intro l b
    have hq : isSpc q = false := hp q (by simp)
    cases l with
    | nil =>
      have hne : (q == ' ') = false := by
        by_cases hqq : q = ' '
        · subst hqq
          simp [isSpc] at hq
        · exact beq_eq_false_iff_ne.mpr hqq
      simp [hasPre, hne]
    | cons c cs =>
      simp only [List.cons_append, List.append_eq, hasPre,
        ih (fun x hx => hp x (List.mem_cons_of_mem _ hx)) cs b]

/-! Generic facts about the scan-and-skip substitution `scanAux`.
`hspace` says the pattern can never match starting at a whitespace
character — true of both `http\S+|www\S+` and `\S+@\S+`. -/

theorem isSpc_cases {x : Char} (hx : isSpc x = true) :
    x = ' ' ∨ x = '\t' ∨ x = '\n' ∨ x = '\r' ∨ x = '\x0b' ∨ x = '\x0c' := by
  have h := hx
  simp only [isSpc, Bool.or_eq_true, beq_iff_eq] at h
  tauto

theorem urlHit_space {x : Char} {r : List Char} (hx : isSpc x = true) :
    urlHit (x :: r) = false := by
  rcases isSpc_cases hx with rfl | rfl | rfl | rfl | rfl | rfl <;>
    simp [urlHit, hasPre]

theorem emailHit_space {x : Char} {r : List Char} (hx : isSpc x = true) :
    emailHit (x :: r) = false := by
  simp [emailHit, List.takeWhile_cons, hx]

/-- In skipping state, the output is empty or starts with a whitespace
character. -/
theorem scanTrue_head (hit : List Char → Bool)
    (hspace : ∀ (x : Char) (r : List Char), isSpc x = true → hit (x :: r) = false) :
    ∀ l : List Char, scanAux hit true l = [] ∨
      ∃ s r', isSpc s = true ∧ scanAux hit true l = s :: r' := by
  intro l
  induction l with
  | nil => exact Or.inl rfl
  | cons c cs ih =>
    by_cases hc : isSpc c = true
    · refine Or.inr ⟨c, scanAux hit false cs, hc, ?_⟩
      simp [scanAux, hc, hspace c cs hc]
    · have hc' : (!isSpc c) = true := by simp [hc]
      simpa [scanAux, hc'] using ih

/-- A whitespace-free prefix of the substituted string is a prefix of the
input: the scan copies characters until a match, and a skipped match is
always followed by whitespace or the end. -/
theorem scanPref (hit : List Char → Bool)
    (hspace : ∀ (x : Char) (r : List Char), isSpc x = true → hit (x :: r) = false) :
    ∀ (l p b : List Char), (∀ c ∈ p, isSpc c = false) →
      scanAux hit false l = p ++ b → ∃ b₂, l = p ++ b₂ := by
  intro l
  induction l with
  | nil =>
    intro p b _ h
    simp only [scanAux] at h
    rcases List.append_eq_nil.mp h.symm with ⟨rfl, _⟩
    exact ⟨[], rfl⟩
  | cons c cs ih =>
    intro p b hp h
    cases p with
    | nil => exact ⟨c :: cs, rfl⟩
    | cons q qs =>
      by_cases hhit : hit (c :: cs) = true
      · simp only [scanAux, hhit, if_true] at h
        rcases scanTrue_head hit hspace cs with h0 | ⟨s, r', hs, h0⟩
        · rw [h0] at h
          exact absurd h.symm (by simp)
        · rw [h0] at h
          simp only [List.cons_append, List.cons.injEq] at h
          have : isSpc q = false := hp q (by simp)
          exact absurd (h.1 ▸ hs) (by simp [this])
      · simp only [scanAux, hhit, Bool.false_eq_true, if_false,
          List.cons_append, List.cons.injEq] at h
        obtain ⟨b₂, hb⟩ := ih qs b (fun x hx => hp x (List.mem_cons_of_mem _ hx)) h.2
        exact ⟨b₂, by simp [h.1, hb]⟩

/-- A whitespace-free substring of the substituted string already occurs in
the input. -/
theorem scanSub_occ (hit : List Char → Bool)
    (hspace : ∀ (x : Char) (r : List Char), isSpc x = true → hit (x :: r) = false) :
    ∀ (l : List Char) (st : Bool) (p : List Char),
      (∀ c ∈ p, isSpc c = false) → Occ p (scanAux hit st l) → Occ p l := by
  intro l
  induction l with
  | nil =>
    intro st p _ h
    simpa [scanAux] using h
  | cons c cs ih =>
    intro st p hp h
    cases hpn : p with
    | nil => exact occ_nil _
    | cons q qs =>
      subst hpn
      have prefCase :
          (∃ b, c :: scanAux hit false cs = (q :: qs) ++ b) →
            Occ (q :: qs) (c :: cs) := by
        rintro ⟨b, hb⟩
        simp only [List.cons_append, List.cons.injEq] at hb
        obtain ⟨b₂, hb₂⟩ := scanPref hit hspace cs qs b
          (fun x hx => hp x (List.mem_cons_of_mem _ hx)) hb.2
        exact ⟨[], b₂, by simp [hb.1, hb₂]⟩
      cases st with
      | true =>
        by_cases hc : isSpc c = true
        · have hb : (!isSpc c) = false := by simp [hc]
          simp only [scanAux, hb, Bool.false_eq_true, if_false,
            hspace c cs hc, if_true] at h
          rcases occ_cons h with ⟨b, hb'⟩ | hh'
          · simp only [List.cons_append, List.cons.injEq] at hb'
            have hq : isSpc q = false := hp q (by simp)
            rw [← hb'.1] at hq
            exact absurd hc (by simp [hq])
          · exact occ_cons_of_occ (ih false _ hp hh')
        · have hb : (!isSpc c) = true := by simp [hc]
          simp only [scanAux, hb, if_true] at h
          exact occ_cons_of_occ (ih true _ hp h)
      | false =>
        by_cases hhit : hit (c :: cs) = true
        · simp only [scanAux, hhit, if_true] at h
          exact occ_cons_of_occ (ih true _ hp h)
        · simp only [scanAux, hhit, Bool.false_eq_true, if_false] at h
          rcases occ_cons h with hpre | hh'
          · exact prefCase hpre
          · exact occ_cons_of_occ (ih false _ hp hh')

/-- When the pattern matches nowhere (at no start position), the
substitution is the identity. -/
theorem scanSub_id {hit : List Char → Bool} :
    ∀ l : List Char, (∀ i, hit (l.drop i) = false) → scanAux hit false l = l := by
  intro l
  induction l with
  | nil => intro _; rfl
  | cons c cs ih =>
    intro h
    have h0 : hit (c :: cs) = false := by simpa using h 0
    have hrest : ∀ i, hit (cs.drop i) = false := fun i => by
      simpa [List.drop_succ_cons] using h (i + 1)
    simp [scanAux, h0, ih hrest]

theorem urlHit_http {c : Char} {b : List Char} (hc : isSpc c = false) :
    urlHit ('h' :: 't' :: 't' :: 'p' :: c :: b) = true := by
  simp [urlHit, hasPre, nonSpaceAt, hc]

theorem urlHit_www {c : Char} {b : List Char} (hc : isSpc c = false) :
    urlHit ('w' :: 'w' :: 'w' :: c :: b) = true := by
  simp [urlHit, hasPre, nonSpaceAt, hc]

/-- Where `http\S+|www\S+` matches, the text decomposes accordingly. -/
theorem urlHit_decomp {l : List Char} (h : urlHit l = true) :
    (∃ c b, l = 'h' :: 't' :: 't' :: 'p' :: c :: b ∧ isSpc c = false) ∨
      (∃ c b, l = 'w' :: 'w' :: 'w' :: c :: b ∧ isSpc c = false) := by
  simp only [urlHit, Bool.or_eq_true, Bool.and_eq_true] at h
  rcases h with ⟨hp, hn⟩ | ⟨hp, hn⟩
  · obtain ⟨r, rfl⟩ := hasPre_iff.mp hp
    left
    unfold nonSpaceAt at hn
    simp only [List.cons_append, List.nil_append] at hn ⊢
    cases r with
    | nil => simp at hn
    | cons c b =>
      simp only [List.drop_succ_cons, List.drop_zero] at hn
      exact ⟨c, b, rfl, by simpa using hn⟩
  · obtain ⟨r, rfl⟩ := hasPre_iff.mp hp
    right
    unfold nonSpaceAt at hn
    simp only [List.cons_append, List.nil_append] at hn ⊢
    cases r with
    | nil => simp at hn
    | cons c b =>
      simp only [List.drop_succ_cons, List.drop_zero] at hn
      exact ⟨c, b, rfl, by simpa using hn⟩

/-- The URL substitution never leaves an `http`-plus-nonspace or
`www`-plus-nonspace occurrence in its output: the scan deleted every such
occurrence, copied characters carry their old neighbours, and a skipped run
is always followed by whitespace. -/
theorem noNewUrl :
    ∀ (l : List Char) (st : Bool) (c : Char), isSpc c = false →
      ¬Occ ['h', 't', 't', 'p', c] (scanAux urlHit st l) ∧
        ¬Occ ['w', 'w', 'w', c] (scanAux urlHit st l) := by
  intro l
  induction l with
  | nil =>
    intro st c _
    have hnil : scanAux urlHit st [] = [] := by cases st <;> rfl
    rw [hnil]
    constructor <;> rintro ⟨a, b, hab⟩ <;> exact absurd hab.symm (by simp)
  | cons x xs ih =>
    intro st c hc
    have hpat1 : ∀ ch ∈ ['t', 't', 'p', c], isSpc ch = false := by
      intro ch hch
      simp only [List.mem_cons, List.not_mem_nil, or_false] at hch
      rcases hch with rfl | rfl | rfl | rfl
      · decide
      · decide
      · decide
      · exact hc
    have hpat2 : ∀ ch ∈ ['w', 'w', c], isSpc ch = false := by
      intro ch hch
      simp only [List.mem_cons, List.not_mem_nil, or_false] at hch
      rcases hch with rfl | rfl | rfl
      · decide
      · decide
      · exact hc
    cases st with
    | true =>
      by_cases hx : isSpc x = true
      · have hb : (!isSpc x) = false := by simp [hx]
        have hout : scanAux urlHit true (x :: xs)
            = x :: scanAux urlHit false xs := by
          simp [scanAux, hb, urlHit_space hx]
        constructor
        · intro hocc
          rw [hout] at hocc
          rcases occ_cons hocc with ⟨b, hb'⟩ | hh'
          · simp only [List.cons_append, List.cons.injEq] at hb'
            rw [hb'.1] at hx
            simp [isSpc] at hx
          · exact (ih false c hc).1 hh'
        · intro hocc
          rw [hout] at hocc
          rcases occ_cons hocc with ⟨b, hb'⟩ | hh'
          · simp only [List.cons_append, List.cons.injEq] at hb'
            rw [hb'.1] at hx
            simp [isSpc] at hx
          · exact (ih false c hc).2 hh'
      · have hb : (!isSpc x) = true := by simp [hx]
        have hout : scanAux urlHit true (x :: xs) = scanAux urlHit true xs := by
          simp [scanAux, hb]
        constructor
        · intro hocc
          rw [hout] at hocc
          exact (ih true c hc).1 hocc
        · intro hocc
          rw [hout] at hocc
          exact (ih true c hc).2 hocc
    | false =>
      by_cases hhit : urlHit (x :: xs) = true
      · have hout : scanAux urlHit false (x :: xs) = scanAux urlHit true xs := by
          simp [scanAux, hhit]
        constructor
        · intro hocc
          rw [hout] at hocc
          exact (ih true c hc).1 hocc
        · intro hocc
          rw [hout] at hocc
          exact (ih true c hc).2 hocc
      · have hout : scanAux urlHit false (x :: xs)
            = x :: scanAux urlHit false xs := by
          simp [scanAux, hhit]
        constructor
        · intro hocc
          rw [hout] at hocc
          rcases occ_cons hocc with ⟨b, hb'⟩ | hh'
          · simp only [List.cons_append, List.cons.injEq] at hb'
            obtain ⟨b₂, hb₂⟩ := scanPref urlHit (fun y r hy => urlHit_space hy)
              xs ['t', 't', 'p', c] b hpat1 hb'.2
            apply hhit
            rw [hb'.1, hb₂]
            simpa using urlHit_http (b := b₂) hc
          · exact (ih false c hc).1 hh'
        · intro hocc
          rw [hout] at hocc
          rcases occ_cons hocc with ⟨b, hb'⟩ | hh'
          · simp only [List.cons_append, List.cons.injEq] at hb'
            obtain ⟨b₂, hb₂⟩ := scanPref urlHit (fun y r hy => urlHit_space hy)
              xs ['w', 'w', c] b hpat2 hb'.2
            apply hhit
            rw [hb'.1, hb₂]
            simpa using urlHit_www (b := b₂) hc
          · exact (ih false c hc).2 hh'

/-- A whitespace-free pattern occurring in `X ++ ' ' :: Y` occurs in `X` or
in `Y`: auxiliary prefix-splitting step. -/
theorem prefixSplitSpace {Y b : List Char} :
    ∀ (qs X : List Char), (∀ ch ∈ qs, isSpc ch = false) →
      X ++ ' ' :: Y = qs ++ b → ∃ b₂, X = qs ++ b₂ := by
  intro qs
  induction qs with
  | nil => intro X _ _; exact ⟨X, rfl⟩
  | cons u us ih =>
    intro X hq h
    cases X with
    | nil =>
      simp only [List.nil_append, List.cons_append, List.cons.injEq] at h
      have : isSpc u = false := hq u (by simp)
      rw [← h.1] at this
      simp [isSpc] at this
    | cons v X' =>
      simp only [List.cons_append, List.cons.injEq] at h
      obtain ⟨b₂, hb₂⟩ := ih X' (fun ch hch => hq ch (List.mem_cons_of_mem _ hch)) h.2
      exact ⟨b₂, by simp [h.1, hb₂]⟩

theorem occ_split_space {p X Y : List Char} (hp : ∀ ch ∈ p, isSpc ch = false)
    (hne : p ≠ []) (h : Occ p (X ++ ' ' :: Y)) : Occ p X ∨ Occ p Y := by
  induction X with
  | nil =>
    simp only [List.nil_append] at h
    rcases occ_cons h with ⟨b, hb⟩ | hh
    · cases p with
      | nil => exact absurd rfl hne
      | cons q qs =>
        simp only [List.cons_append, List.cons.injEq] at hb
        have : isSpc q = false := hp q (by simp)
        rw [← hb.1] at this
        simp [isSpc] at this
    · exact Or.inr hh
  | cons x X' ih =>
    simp only [List.cons_append] at h
    rcases occ_cons h with ⟨b, hb⟩ | hh
    · cases p with
      | nil => exact absurd rfl hne
      | cons q qs =>
        simp only [List.cons_append, List.cons.injEq] at hb
        obtain ⟨b₂, hb₂⟩ := prefixSplitSpace qs X'
          (fun ch hch => hp ch (List.mem_cons_of_mem _ hch)) hb.2
        exact Or.inl ⟨[], b₂, by simp [hb.1, hb₂]⟩
    · rcases ih hh with h' | h'
      · exact Or.inl (occ_cons_of_occ h')
      · exact Or.inr h'

theorem occ_unwords {p : List Char} (hp : ∀ ch ∈ p, isSpc ch = false)
    (hne : p ≠ []) :
    ∀ ws : List (List Char), Occ p (unwords ws) → ∃ w ∈ ws, Occ p w := by
  intro ws
  induction ws with
  | nil =>
    intro h
    obtain ⟨a, b, hab⟩ := h
    rcases List.append_eq_nil.mp hab.symm with ⟨h1, _⟩
    rcases List.append_eq_nil.mp h1 with ⟨_, h2⟩
    exact absurd h2 hne
  | cons w vs ih =>
    intro h
    cases vs with
    | nil => exact ⟨w, by simp, h⟩
    | cons v vs' =>
      have : Occ p (w ++ ' ' :: unwords (v :: vs')) := h
      rcases occ_split_space hp hne this with h' | h'
      · exact ⟨w, by simp, h'⟩
      · obtain ⟨u, hu, hocc⟩ := ih h'
        exact ⟨u, List.mem_cons_of_mem _ hu, hocc⟩

theorem map_eq_append_exists {α β : Type} {f : α → β} :
    ∀ {u v : List β} {l : List α}, List.map f l = u ++ v →
      ∃ l₁ l₂, l = l₁ ++ l₂ ∧ List.map f l₁ = u ∧ List.map f l₂ = v := by
  intro u
  induction u with
  | nil => intro v l h; exact ⟨[], l, rfl, rfl, by simpa using h⟩
  | cons x u' ih =>
    intro v l h
    cases l with
    | nil => simp at h
    | cons c l' =>
      simp only [List.map_cons, List.cons_append, List.cons.injEq] at h
      obtain ⟨l₁, l₂, rfl, hm1, hm2⟩ := ih h.2
      exact ⟨c :: l₁, l₂, rfl, by simp [h.1, hm1], hm2⟩

theorem occ_map {α : Type} {f : α → Char} {p : List Char} {l : List α}
    (h : Occ p (List.map f l)) :
    ∃ p₀ : List α, (∃ a b, l = a ++ p₀ ++ b) ∧ List.map f p₀ = p := by
  obtain ⟨a, b, hab⟩ := h
  rw [List.append_assoc] at hab
  obtain ⟨l₁, l₂, rfl, hm1, hm2⟩ := map_eq_append_exists (u := a) (v := p ++ b) hab
  obtain ⟨l₃, l₄, rfl, hm3, hm4⟩ := map_eq_append_exists (u := p) (v := b) hm2
  exact ⟨l₃, ⟨l₁, l₄, by simp⟩, hm3⟩

/-- The character filter cannot create a non-whitespace pattern: it maps
each character to itself or to a space. -/
theorem charFilter_occ {p l : List Char} (hp : ∀ ch ∈ p, isSpc ch = false)
    (h : Occ p (charFilter l)) : Occ p l := by
  obtain ⟨p₀, ⟨a, b, rfl⟩, hm⟩ := occ_map (f := fun c =>
    if keepChar c || isSpc c then c else ' ') h
  have hpp : p₀ = p := by
    clear h
    induction p₀ generalizing p with
    | nil => simpa using hm.symm
    | cons y p₀' ih =>
      cases p with
      | nil => simp at hm
      | cons ch p' =>
        simp only [List.map_cons, List.cons.injEq] at hm
        have hch : isSpc ch = false := hp ch (by simp)
        have hy : y = ch := by
          by_cases hcond : (keepChar y || isSpc y) = true
          · rw [if_pos hcond] at hm
            exact hm.1
          · rw [if_neg hcond] at hm
            rw [← hm.1] at hch
            simp [isSpc] at hch
        rw [ih (fun x hx => hp x (List.mem_cons_of_mem _ hx)) hm.2, hy]
  subst hpp
  exact ⟨a, b, rfl⟩

/-! # Claim C10: idempotence of `_clean_text` -/

/-- Every character of a cleaned text is either from the kept class or a
single space separator. -/
theorem cleanText_chars {s : List Char} :
    ∀ c ∈ cleanText s, keepChar c = true ∨ c = ' ' := by
  intro c hc
  unfold cleanText at hc
  rcases mem_unwords hc with rfl | ⟨w, hw, hcw⟩
  · exact Or.inr rfl
  · left
    have hsf := words_spacefree _ w hw c hcw
    rcases charFilter_chars (words_sub_chars _ w hw c hcw) with h | h
    · exact h
    · rw [h] at hsf
      simp at hsf

theorem at_not_mem_cleanText (s : List Char) : '@' ∉ cleanText s := by
  intro h
  rcases cleanText_chars '@' h with h' | h' <;> simp [keepChar] at h'

theorem emailHit_at {m : List Char} (h : emailHit m = true) : '@' ∈ m := by
  unfold emailHit at h
  have h1 : '@' ∈ ((m.takeWhile fun x => !isSpc x).drop 1).dropLast := by
    simpa using h
  exact (List.takeWhile_sublist _).subset
    (List.drop_subset 1 _ (List.dropLast_subset _ h1))

theorem emailSub_id {l : List Char} (h : '@' ∉ l) : scanSub emailHit l = l := by
  refine scanSub_id l fun i => ?_
  cases he : emailHit (l.drop i)
  · rfl
  · exact absurd (List.drop_subset i l (emailHit_at he)) h

/-- The cleaned text contains no start position matching `http\S+|www\S+`. -/
theorem no_urlHit_cleanText (s : List Char) :
    ∀ i, urlHit ((cleanText s).drop i) = false := by
  intro i
  cases hu : urlHit ((cleanText s).drop i)
  · rfl
  · exfalso
    have hocc : ∃ c, isSpc c = false ∧
        (Occ ['h', 't', 't', 'p', c] (cleanText s) ∨
          Occ ['w', 'w', 'w', c] (cleanText s)) := by
      rcases urlHit_decomp hu with ⟨c, b, hb, hc⟩ | ⟨c, b, hb, hc⟩
      · refine ⟨c, hc, Or.inl ⟨(cleanText s).take i, b, ?_⟩⟩
        conv_lhs => rw [← List.take_append_drop i (cleanText s)]
        rw [hb]
        simp
      · refine ⟨c, hc, Or.inr ⟨(cleanText s).take i, b, ?_⟩⟩
        conv_lhs => rw [← List.take_append_drop i (cleanText s)]
        rw [hb]
        simp
    obtain ⟨c, hc, hor⟩ := hocc
    have hpat1 : ∀ ch ∈ ['h', 't', 't', 'p', c], isSpc ch = false := by
      intro ch hch
      simp only [List.mem_cons, List.not_mem_nil, or_false] at hch
      rcases hch with rfl | rfl | rfl | rfl | rfl
      · decide
      · decide
      · decide
      · decide
      · exact hc
    have hpat2 : ∀ ch ∈ ['w', 'w', 'w', c], isSpc ch = false := by
      intro ch hch
      simp only [List.mem_cons, List.not_mem_nil, or_false] at hch
      rcases hch with rfl | rfl | rfl | rfl
      · decide
      · decide
      · decide
      · exact hc
    -- transfer the occurrence back through unwords/words, the character
    -- filter and the email substitution, into the URL substitution's output
    have down :
        ∀ p : List Char, (∀ ch ∈ p, isSpc ch = false) → p ≠ [] →
          Occ p (cleanText s) →
          Occ p (scanAux urlHit false (s.map pyLower)) := by
      intro p hsf hne hp
      obtain ⟨w, hw, hpw⟩ := occ_unwords hsf hne _ hp
      have h1 : Occ p (charFilter (scanSub emailHit (scanSub urlHit (s.map pyLower)))) :=
        occ_trans hpw (words_occOf _ w hw)
      have h2 := charFilter_occ hsf h1
      exact scanSub_occ emailHit (fun y r hy => emailHit_space hy) _ false p hsf h2
    rcases hor with hoc | hoc
    · exact (noNewUrl (s.map pyLower) false c hc).1
        (down _ hpat1 (by simp) hoc)
    · exact (noNewUrl (s.map pyLower) false c hc).2
        (down _ hpat2 (by simp) hoc)

/-- C10.  `LocalRAGMatcher._clean_text` is idempotent: its output contains
only lowercase kept characters separated by single spaces, no `@`, and no
`http`/`www` followed by a non-space character, so every pass after the
first — lowercasing, the URL and email deletions, the character filter and
the whitespace collapse — leaves the text unchanged.  Keyword extraction,
skill extraction and scoring therefore see the same text whether given raw
or already-normalized input. -/
theorem c10_cleanText_idempotent (s : List Char) :
    cleanText (cleanText s) = cleanText s := by
  have h1 : (cleanText s).map pyLower = cleanText s := by
    have : ∀ c ∈ cleanText s, pyLower c = c := fun c hc =>
      pyLower_fix (cleanText_chars c hc)
    calc (cleanText s).map pyLower = (cleanText s).map id :=
          List.map_congr_left this
      _ = cleanText s := List.map_id _
  have h2 : scanSub urlHit (cleanText s) = cleanText s :=
    scanSub_id _ (no_urlHit_cleanText s)
  have h3 : scanSub emailHit (cleanText s) = cleanText s :=
    emailSub_id (at_not_mem_cleanText s)
  have h4 : charFilter (cleanText s) = cleanText s := by
    have : ∀ c ∈ cleanText s,
        (if keepChar c || isSpc c then c else ' ') = c := by
      intro c hc
      rcases cleanText_chars c hc with h | rfl
      · simp [h]
      · simp [isSpc]
    calc charFilter (cleanText s)
        = (cleanText s).map id := List.map_congr_left this
      _ = cleanText s := List.map_id _
  have h5 : words (cleanText s)
      = words (charFilter (scanSub emailHit (scanSub urlHit (s.map pyLower)))) := by
    show words (cleanText s) = words _
    unfold cleanText
    rw [words_unwords]
    intro w hw
    exact ⟨words_ne_nil _ w hw, words_spacefree _ w hw⟩
  show unwords (words (charFilter (scanSub emailHit (scanSub urlHit
    ((cleanText s).map pyLower))))) = cleanText s
  rw [h1, h2, h3, h4, h5]
  rfl

/-! # Claim C9: keyword-match monotonicity machinery

Appending ` ++ word` to the job text extends the cleaned text on the right,
and every per-keyword quantity (presence, first position, non-overlapping
count) is monotone under such an extension. -/

theorem nonSpaceAt_append_space {X b : List Char} {n : Nat} (hn : n ≤ X.length) :
    nonSpaceAt (X ++ ' ' :: b) n = nonSpaceAt X n := by
  unfold nonSpaceAt
  rw [List.drop_append_eq_append_drop, Nat.sub_eq_zero_of_le hn, List.drop_zero]
  cases hX : X.drop n with
  | nil => simp [isSpc]
  | cons c r => simp

theorem urlHit_append_space (l b : List Char) :
    urlHit (l ++ ' ' :: b) = urlHit l := by
  unfold urlHit
  rw [hasPre_append_space (by decide) l b, hasPre_append_space (by decide) l b]
  congr 1
  · cases hp : hasPre ['h', 't', 't', 'p'] l
    · simp
    · obtain ⟨r, rfl⟩ := hasPre_iff.mp hp
      rw [nonSpaceAt_append_space (by simp)]
  · cases hp : hasPre ['w', 'w', 'w'] l
    · simp
    · obtain ⟨r, rfl⟩ := hasPre_iff.mp hp
      rw [nonSpaceAt_append_space (by simp)]

theorem takeWhile_append_space (l b : List Char) :
    (l ++ ' ' :: b).takeWhile (fun x => !isSpc x) = l.takeWhile (fun x => !isSpc x) := by
  induction l with
  | nil => simp [List.takeWhile_cons, isSpc]
  | cons c cs ih =>
    simp only [List.cons_append, List.takeWhile_cons]
    by_cases hc : (!isSpc c) = true
    · simp [hc, ih]
    · simp only [Bool.not_eq_true] at hc
      simp [hc]

theorem emailHit_append_space (l b : List Char) :
    emailHit (l ++ ' ' :: b) = emailHit l := by
  unfold emailHit
  rw [takeWhile_append_space]

/-- The scan-and-skip substitution distributes over a space separator when
the pattern neither starts at whitespace nor looks past a space. -/
theorem scanAux_append_space {hit : List Char → Bool}
    (hspace : ∀ (x : Char) (r : List Char), isSpc x = true → hit (x :: r) = false)
    (hB : ∀ l b, hit (l ++ ' ' :: b) = hit l) (b : List Char) :
    ∀ (a : List Char) (st : Bool),
      scanAux hit st (a ++ ' ' :: b) = scanAux hit st a ++ ' ' :: scanAux hit false b := by
  intro a
  induction a with
  | nil =>
    intro st
    have hsp : isSpc ' ' = true := by decide
    cases st <;> simp [scanAux, hspace ' ' b hsp, hsp]
  | cons c a' ih =>
    intro st
    cases st with
    | true =>
      by_cases hc : isSpc c = true
      · have hgb : (!isSpc c) = false := by simp [hc]
        have h1 : hit (c :: (a' ++ ' ' :: b)) = false := hspace c _ hc
        have h2 : hit (c :: a') = false := hspace c _ hc
        have eL : scanAux hit true ((c :: a') ++ ' ' :: b)
            = c :: scanAux hit false (a' ++ ' ' :: b) := by
          rw [List.cons_append]
          rw [show scanAux hit true (c :: (a' ++ ' ' :: b))
              = if (!isSpc c) = true then scanAux hit true (a' ++ ' ' :: b)
                else if hit (c :: (a' ++ ' ' :: b)) = true then
                  scanAux hit true (a' ++ ' ' :: b)
                else c :: scanAux hit false (a' ++ ' ' :: b) from rfl, hgb, h1]
          simp
        have eR : scanAux hit true (c :: a') = c :: scanAux hit false a' := by
          rw [show scanAux hit true (c :: a')
              = if (!isSpc c) = true then scanAux hit true a'
                else if hit (c :: a') = true then scanAux hit true a'
                else c :: scanAux hit false a' from rfl, hgb, h2]
          simp
        rw [eL, eR]
        simp [ih false]
      · have hgb : (!isSpc c) = true := by simp [hc]
        have eL : scanAux hit true ((c :: a') ++ ' ' :: b)
            = scanAux hit true (a' ++ ' ' :: b) := by
          rw [List.cons_append]
          rw [show scanAux hit true (c :: (a' ++ ' ' :: b))
              = if (!isSpc c) = true then scanAux hit true (a' ++ ' ' :: b)
                else if hit (c :: (a' ++ ' ' :: b)) = true then
                  scanAux hit true (a' ++ ' ' :: b)
                else c :: scanAux hit false (a' ++ ' ' :: b) from rfl, hgb]
          simp
        have eR : scanAux hit true (c :: a') = scanAux hit true a' := by
          rw [show scanAux hit true (c :: a')
              = if (!isSpc c) = true then scanAux hit true a'
                else if hit (c :: a') = true then scanAux hit true a'
                else c :: scanAux hit false a' from rfl, hgb]
          simp
        rw [eL, eR]
        exact ih true
    | false =>
      have hB' : hit (c :: (a' ++ ' ' :: b)) = hit (c :: a') := by
        have := hB (c :: a') b
        simpa using this
      have eL : scanAux hit false ((c :: a') ++ ' ' :: b)
          = if hit (c :: a') = true then scanAux hit true (a' ++ ' ' :: b)
            else c :: scanAux hit false (a' ++ ' ' :: b) := by
        rw [List.cons_append]
        rw [show scanAux hit false (c :: (a' ++ ' ' :: b))
            = if hit (c :: (a' ++ ' ' :: b)) = true then
                scanAux hit true (a' ++ ' ' :: b)
              else c :: scanAux hit false (a' ++ ' ' :: b) from rfl, hB']
      have eR : scanAux hit false (c :: a')
          = if hit (c :: a') = true then scanAux hit true a'
            else c :: scanAux hit false a' := rfl
      rw [eL, eR]
      by_cases hh : hit (c :: a') = true
      · simp only [hh, if_true]
        exact ih true
      · simp only [hh, if_false]
        simp [ih false]

theorem wordsAux_append_space (Y : List Char) :
    ∀ (X acc : List Char),
      wordsAux (X ++ ' ' :: Y) acc = wordsAux X acc ++ wordsAux Y [] := by
  intro X
  induction X with
  | nil =>
    intro acc
    have hsp : isSpc ' ' = true := by decide
    simp only [List.nil_append, wordsAux, hsp, if_true]
    by_cases ha : acc.isEmpty = true
    · simp [ha]
    · simp [ha]
  | cons c cs ih =>
    intro acc
    simp only [List.cons_append, wordsAux]
    by_cases hc : isSpc c = true
    · simp only [hc, if_true]
      by_cases ha : acc.isEmpty = true
      · simp [ha, ih]
      · simp [ha, ih]
    · simp only [hc, Bool.false_eq_true, if_false]
      exact ih (c :: acc)

theorem cleanText_append_space (j w : List Char) :
    cleanText (j ++ ' ' :: w)
      = unwords (words (charFilter (scanSub emailHit (scanSub urlHit (j.map pyLower))))
          ++ words (charFilter (scanSub emailHit (scanSub urlHit (w.map pyLower))))) := by
  unfold cleanText
  have h1 : (j ++ ' ' :: w).map pyLower = j.map pyLower ++ ' ' :: w.map pyLower := by
    simp [pyLower]
  rw [h1]
  rw [show scanSub urlHit (j.map pyLower ++ ' ' :: w.map pyLower)
      = scanSub urlHit (j.map pyLower) ++ ' ' :: scanSub urlHit (w.map pyLower) from
    scanAux_append_space (fun x r hx => urlHit_space hx) urlHit_append_space _ _ false]
  rw [show scanSub emailHit (scanSub urlHit (j.map pyLower) ++ ' ' :: scanSub urlHit (w.map pyLower))
      = scanSub emailHit (scanSub urlHit (j.map pyLower))
          ++ ' ' :: scanSub emailHit (scanSub urlHit (w.map pyLower)) from
    scanAux_append_space (fun x r hx => emailHit_space hx) emailHit_append_space _ _ false]
  have h2 : ∀ X Y : List Char,
      charFilter (X ++ ' ' :: Y) = charFilter X ++ ' ' :: charFilter Y := by
    intro X Y
    simp [charFilter, isSpc]
  rw [h2]
  have h3 : ∀ X Y : List Char, words (X ++ ' ' :: Y) = words X ++ words Y :=
    fun X Y => wordsAux_append_space Y X []
  rw [h3]

theorem unwords_append_ne (ws vs : List (List Char)) (hws : ws ≠ []) (hvs : vs ≠ []) :
    unwords (ws ++ vs) = unwords ws ++ ' ' :: unwords vs := by
  induction ws with
  | nil => exact absurd rfl hws
  | cons w ws' ih =>
    cases ws' with
    | nil =>
      cases vs with
      | nil => exact absurd rfl hvs
      | cons v vs' => simp [unwords]
    | cons w₂ ws'' =>
      have := ih (by simp)
      show unwords (w :: (w₂ :: ws'' ++ vs)) = _
      rw [show unwords (w :: (w₂ :: ws'' ++ vs))
          = w ++ ' ' :: unwords (w₂ :: ws'' ++ vs) from rfl]
      rw [this]
      rw [show unwords (w :: w₂ :: ws'') = w ++ ' ' :: unwords (w₂ :: ws'') from rfl]
      simp

theorem hasPre_short : ∀ {p l : List Char}, l.length < p.length → hasPre p l = false := by
  intro p
  induction p with
  | nil => intro l h; simp at h
  | cons q ps ih =>
    intro l h
    cases l with
    | nil => rfl
    | cons c cs =>
      simp only [List.length_cons, Nat.succ_lt_succ_iff] at h
      simp [hasPre, ih h]

theorem hasPre_append_left {p l : List Char} (r : List Char)
    (h : hasPre p l = true) : hasPre p (l ++ r) = true := by
  obtain ⟨r', rfl⟩ := hasPre_iff.mp h
  exact hasPre_iff.mpr ⟨r' ++ r, by simp⟩

theorem hasPre_append_agree : ∀ {p l : List Char} (r : List Char),
    p.length ≤ l.length → hasPre p (l ++ r) = hasPre p l := by
  intro p
  induction p with
  | nil => intro l r _; rfl
  | cons q ps ih =>
    intro l r h
    cases l with
    | nil => simp at h
    | cons c cs =>
      simp only [List.length_cons, Nat.succ_le_succ_iff] at h
      simp [hasPre, List.cons_append, ih r h]

theorem findSub_append {k : List Char} :
    ∀ {c : List Char} {i : Nat} (r : List Char), findSub k c = some i →
      ∃ i', findSub k (c ++ r) = some i' ∧ i' ≤ i := by
  intro c
  induction c with
  | nil =>
    intro i r h
    unfold findSub at h
    by_cases hk : k.isEmpty = true
    · rw [if_pos hk] at h
      obtain rfl : (0 : Nat) = i := by simpa using h
      refine ⟨0, ?_, le_rfl⟩
      rcases List.isEmpty_iff.mp hk with rfl
      cases r with
      | nil => rfl
      | cons x xs => simp [findSub, hasPre]
    · rw [if_neg hk] at h
      simp at h
  | cons x cs ih =>
    intro i r h
    unfold findSub at h
    by_cases hp : hasPre k (x :: cs) = true
    · rw [if_pos hp] at h
      obtain rfl : (0 : Nat) = i := by simpa using h
      refine ⟨0, ?_, le_rfl⟩
      have := hasPre_append_left r hp
      simp only [List.cons_append] at this ⊢
      simp [findSub, this]
    · rw [if_neg hp] at h
      obtain ⟨j, hj, rfl⟩ : ∃ j, findSub k cs = some j ∧ j + 1 = i := by
        cases hf : findSub k cs with
        | none => rw [hf] at h; simp at h
        | some j => rw [hf] at h; exact ⟨j, rfl, by simpa using h⟩
      by_cases hp2 : hasPre k (x :: (cs ++ r)) = true
      · exact ⟨0, by simp [findSub, hp2], by omega⟩
      · obtain ⟨j', hj', hle⟩ := ih r hj
        refine ⟨j' + 1, ?_, by omega⟩
        simp [findSub, hp2, hj']

theorem hasSub_append {k c : List Char} (r : List Char)
    (h : hasSub k c = true) : hasSub k (c ++ r) = true := by
  unfold hasSub at h ⊢
  rw [Option.isSome_iff_exists] at h
  obtain ⟨i, hi⟩ := h
  obtain ⟨i', hi', _⟩ := findSub_append r hi
  simp [hi']

theorem posBonus_pos (n : Nat) : 0 < posBonus n := by
  unfold posBonus
  split_ifs <;> norm_num

theorem posBonus_antitone {m n : Nat} (h : m ≤ n) : posBonus n ≤ posBonus m := by
  unfold posBonus
  split_ifs <;> first | omega | norm_num

theorem countAux_zero_short {m : Char} {ms : List Char} :
    ∀ {l : List Char}, l.length < (m :: ms).length → countAux m ms 0 l = 0 := by
  intro l
  induction l with
  | nil => intro _; rfl
  | cons x cs ih =>
    intro h
    have hp : hasPre (m :: ms) (x :: cs) = false := hasPre_short h
    have hlt : cs.length < (m :: ms).length := by
      simp only [List.length_cons] at h ⊢
      omega
    simp [countAux, hp, ih hlt]

theorem countAux_append_le {m : Char} {ms : List Char} (r : List Char) :
    ∀ (c : List Char) (skip : Nat),
      countAux m ms skip c ≤ countAux m ms skip (c ++ r) := by
  intro c
  induction c with
  | nil => intro skip; simp [countAux]
  | cons x cs ih =>
    intro skip
    cases skip with
    | succ s =>
      simp only [List.cons_append, countAux]
      exact ih s
    | zero =>
      by_cases hp : hasPre (m :: ms) (x :: cs) = true
      · have hp2 : hasPre (m :: ms) (x :: (cs ++ r)) = true := by
          have := hasPre_append_left r hp
          simpa using this
        simp only [List.cons_append, List.append_eq, countAux, hp, hp2, if_true]
        exact Nat.add_le_add_left (ih ms.length) 1
      · have hp' : hasPre (m :: ms) (x :: cs) = false := by simpa using hp
        by_cases hp2 : hasPre (m :: ms) (x :: (cs ++ r)) = true
        · have hlen : (x :: cs).length < (m :: ms).length := by
            by_contra hlen
            push_neg at hlen
            have hagree := hasPre_append_agree (p := m :: ms) (l := x :: cs) r hlen
            simp only [List.cons_append] at hagree
            rw [hagree] at hp2
            exact hp hp2
          have h0 : countAux m ms 0 cs = 0 := countAux_zero_short (by
            simp only [List.length_cons] at hlen ⊢
            omega)
          simp only [List.cons_append, List.append_eq, countAux, hp',
            Bool.false_eq_true, if_false, hp2, if_true, h0]
          omega
        · have hp2' : hasPre (m :: ms) (x :: (cs ++ r)) = false := by simpa using hp2
          simp only [List.cons_append, List.append_eq, countAux, hp', hp2',
            Bool.false_eq_true, if_false]
          exact ih 0

theorem countSub_append_le (k c r : List Char) :
    countSub k c ≤ countSub k (c ++ r) := by
  cases k with
  | nil => simp [countSub]
  | cons m ms => exact countAux_append_le r c 0

theorem kwTerm_nonneg {k : List Char} {wq : ℚ} (hw : 0 ≤ wq) (d : List Char) :
    (0 : ℝ) ≤ if hasSub k d then
      ((wq * posBonus ((findSub k d).getD 0) : ℚ) : ℝ) *
        Real.sqrt (min (countSub k d) 3 : Nat)
    else 0 := by
  split
  · refine mul_nonneg ?_ (Real.sqrt_nonneg _)
    have h0 : (0 : ℚ) ≤ wq * posBonus ((findSub k d).getD 0) :=
      mul_nonneg hw (posBonus_pos _).le
    exact_mod_cast h0
  · exact le_refl 0

/-- Extending the cleaned job text on the right can only improve one
keyword's contribution: presence persists, the first occurrence cannot move
later, the occurrence count cannot shrink. -/
theorem kwTerm_mono {k : List Char} {wq : ℚ} {c : List Char} (r : List Char)
    (hw : 0 ≤ wq) :
    (if hasSub k c then
        ((wq * posBonus ((findSub k c).getD 0) : ℚ) : ℝ) *
          Real.sqrt (min (countSub k c) 3 : Nat)
      else 0)
      ≤ (if hasSub k (c ++ r) then
        ((wq * posBonus ((findSub k (c ++ r)).getD 0) : ℚ) : ℝ) *
          Real.sqrt (min (countSub k (c ++ r)) 3 : Nat)
      else 0) := by
  by_cases hsub : hasSub k c = true
  · have hsub2 := hasSub_append r hsub
    rw [if_pos hsub, if_pos hsub2]
    obtain ⟨i, hi⟩ := Option.isSome_iff_exists.mp hsub
    obtain ⟨i', hi', hle⟩ := findSub_append r hi
    rw [hi, hi']
    simp only [Option.getD_some]
    have hq : (wq * posBonus i : ℚ) ≤ wq * posBonus i' :=
      mul_le_mul_of_nonneg_left (posBonus_antitone hle) hw
    have hs : Real.sqrt (min (countSub k c) 3 : Nat)
        ≤ Real.sqrt (min (countSub k (c ++ r)) 3 : Nat) := by
      apply Real.sqrt_le_sqrt
      have hmin := min_le_min (countSub_append_le k c r) (le_refl 3)
      exact_mod_cast hmin
    refine mul_le_mul ?_ hs (Real.sqrt_nonneg _) ?_
    · exact_mod_cast hq
    · have h0 : (0 : ℚ) ≤ wq * posBonus i' := mul_nonneg hw (posBonus_pos _).le
      exact_mod_cast h0
  · rw [if_neg hsub]
    exact kwTerm_nonneg hw (c ++ r)

theorem calculateKeywordMatch_nonneg (ks : List (List Char × ℚ)) (t : List Char)
    (hw : ∀ p ∈ ks, 0 ≤ p.2) : 0 ≤ calculateKeywordMatch ks t := by
  unfold calculateKeywordMatch
  by_cases hk0 : ks = []
  · rw [if_pos hk0]
  · rw [if_neg hk0]
    by_cases hT0 : ((ks.map Prod.snd).sum : ℚ) = 0
    · rw [if_pos hT0]
    · rw [if_neg hT0]
      refine le_min ?_ zero_le_one
      refine div_nonneg ?_ ?_
      · refine List.sum_nonneg ?_
        intro x hx
        simp only [List.mem_map] at hx
        obtain ⟨kw, hkw, rfl⟩ := hx
        exact kwTerm_nonneg (hw kw hkw) _
      · have h0 : (0 : ℚ) ≤ (ks.map Prod.snd).sum := by
          refine List.sum_nonneg ?_
          intro x hx
          simp only [List.mem_map] at hx
          obtain ⟨kw, hkw, rfl⟩ := hx
          exact hw kw hkw
        exact_mod_cast h0

theorem calculateKeywordMatch_of_clean_nil (ks : List (List Char × ℚ))
    (t : List Char) (hclean : cleanText t = [])
    (hne : ∀ p ∈ ks, p.1 ≠ []) : calculateKeywordMatch ks t = 0 := by
  unfold calculateKeywordMatch
  by_cases hk0 : ks = []
  · rw [if_pos hk0]
  · rw [if_neg hk0]
    have hterm : ∀ kw ∈ ks,
        (if hasSub kw.1 (cleanText t) then
          ((kw.2 * posBonus ((findSub kw.1 (cleanText t)).getD 0) : ℚ) : ℝ) *
            Real.sqrt (min (countSub kw.1 (cleanText t)) 3 : Nat)
        else 0) = 0 := by
      intro kw hkw
      have hk : kw.1 ≠ [] := hne kw hkw
      have hsub : hasSub kw.1 (cleanText t) = false := by
        rw [hclean]
        unfold hasSub findSub
        rw [if_neg (by simpa [List.isEmpty_iff] using hk)]
        rfl
      simp [hsub]
    have hsum :
        (ks.map fun kw =>
          if hasSub kw.1 (cleanText t) then
            ((kw.2 * posBonus ((findSub kw.1 (cleanText t)).getD 0) : ℚ) : ℝ) *
              Real.sqrt (min (countSub kw.1 (cleanText t)) 3 : Nat)
          else 0).sum = 0 := by
      rw [List.sum_eq_zero]
      intro x hx
      simp only [List.mem_map] at hx
      obtain ⟨kw, hkw, rfl⟩ := hx
      exact hterm kw hkw
    by_cases hT0 : ((ks.map Prod.snd).sum : ℚ) = 0
    · rw [if_pos hT0]
    · rw [if_neg hT0, hsum, zero_div]
      simp

/-- Monotonicity of the keyword match under a right extension of the
cleaned job text. -/
theorem calculateKeywordMatch_mono_ext (ks : List (List Char × ℚ))
    (j₁ j₂ r : List Char) (hks : ∀ p ∈ ks, p.1 ≠ [] ∧ 0 ≤ p.2)
    (hclean : cleanText j₂ = cleanText j₁ ++ r) :
    calculateKeywordMatch ks j₁ ≤ calculateKeywordMatch ks j₂ := by
  by_cases hk0 : ks = []
  · simp [calculateKeywordMatch, hk0]
  · unfold calculateKeywordMatch
    rw [if_neg hk0, if_neg hk0, hclean]
    by_cases hT0 : ((ks.map Prod.snd).sum : ℚ) = 0
    · rw [if_pos hT0, if_pos hT0]
    · rw [if_neg hT0, if_neg hT0]
      have hTnn : (0 : ℚ) ≤ (ks.map Prod.snd).sum := by
        refine List.sum_nonneg ?_
        intro x hx
        simp only [List.mem_map] at hx
        obtain ⟨kw, hkw, rfl⟩ := hx
        exact (hks kw hkw).2
      have hTpos : (0 : ℝ) < ((ks.map Prod.snd).sum : ℚ) := by
        have : (0 : ℚ) < (ks.map Prod.snd).sum := lt_of_le_of_ne hTnn (Ne.symm hT0)
        exact_mod_cast this
      have hsum :
          (ks.map fun kw =>
            if hasSub kw.1 (cleanText j₁) then
              ((kw.2 * posBonus ((findSub kw.1 (cleanText j₁)).getD 0) : ℚ) : ℝ) *
                Real.sqrt (min (countSub kw.1 (cleanText j₁)) 3 : Nat)
            else 0).sum
          ≤ (ks.map fun kw =>
            if hasSub kw.1 (cleanText j₁ ++ r) then
              ((kw.2 * posBonus ((findSub kw.1 (cleanText j₁ ++ r)).getD 0) : ℚ) : ℝ) *
                Real.sqrt (min (countSub kw.1 (cleanText j₁ ++ r)) 3 : Nat)
            else 0).sum := by
        refine List.sum_le_sum ?_
        intro kw hkw
        exact kwTerm_mono r (hks kw hkw).2
      exact min_le_min (div_le_div_of_nonneg_right hsum hTpos.le) le_rfl

/-- C9, amended claim: appending a word to the END of the job text
(whitespace-separated) never decreases the keyword-match score, for every
keyword list with non-empty keywords and non-negative weights — in
particular for every extracted query-keyword list.  (Inserting the
occurrence in the middle of the job text CAN decrease the score, because it
may destroy a bigram keyword occurrence; see the counterexample.) -/
theorem c9_amended (ks : List (List Char × ℚ)) (j w : List Char)
    (hks : ∀ p ∈ ks, p.1 ≠ [] ∧ 0 ≤ p.2) :
    calculateKeywordMatch ks j ≤ calculateKeywordMatch ks (j ++ ' ' :: w) := by
  have hsplit := cleanText_append_space j w
  by_cases hWwe :
      words (charFilter (scanSub emailHit (scanSub urlHit (w.map pyLower)))) = []
  · refine calculateKeywordMatch_mono_ext ks j (j ++ ' ' :: w) [] hks ?_
    rw [hsplit, hWwe, List.append_nil]
    simp [cleanText]
  · by_cases hWje :
        words (charFilter (scanSub emailHit (scanSub urlHit (j.map pyLower)))) = []
    · have h2 : cleanText j = [] := by
        show unwords (words (charFilter (scanSub emailHit (scanSub urlHit
          (j.map pyLower))))) = []
        rw [hWje]
        rfl
      rw [calculateKeywordMatch_of_clean_nil ks j h2 (fun p hp => (hks p hp).1)]
      exact calculateKeywordMatch_nonneg ks _ (fun p hp => (hks p hp).2)
    · refine calculateKeywordMatch_mono_ext ks j (j ++ ' ' :: w)
        (' ' :: unwords (words (charFilter (scanSub emailHit (scanSub urlHit
          (w.map pyLower)))))) hks ?_
      rw [hsplit, unwords_append_ne _ _ hWje hWwe]
      rfl

/-- C9 witness: appending the keyword `c` to the job text `b` does not
decrease the keyword match for the one-keyword list `[(b, 1)]`. -/
theorem c9_witness :
    calculateKeywordMatch [([ 'b' ], 1)] ['b']
      ≤ calculateKeywordMatch [([ 'b' ], 1)] (['b'] ++ ' ' :: ['c']) :=
  c9_amended [([ 'b' ], 1)] ['b'] ['c'] (by
    intro p hp
    simp only [List.mem_singleton] at hp
    subst hp
    exact ⟨by decide, by norm_num⟩)

/-- A concrete resume text for exercising the keyword extractor. -/
def rText9 : List Char :=
  (("machine learning machine learning machine learning api" : String)).toList

def jText9 : List Char := (("machine learning" : String)).toList

def jText9' : List Char := (("machine api learning" : String)).toList

/-- The keyword list `_extract_keywords` produces for `rText9`. -/
def ks9 : List (List Char × ℚ) :=
  [((("machine" : String)).toList, 1), ((("learning" : String)).toList, 1),
   ((("machine learning" : String)).toList, 1),
   ((("api" : String)).toList, 2 / 3),
   ((("learning machine" : String)).toList, 1 / 3),
   ((("learning api" : String)).toList, 1 / 6)]

theorem extractKeywords_rText9 : extractKeywords rText9 40 = ks9 := by
  norm_num +decide [rText9, ks9, extractKeywords, words, wordsAux, cleanText,
    charFilter, scanSub, scanAux, urlHit, emailHit, hasPre, nonSpaceAt, isSpc,
    keepChar, pyLower, uniPass, bump, sortByKeyDesc, insByKey, STOP_WORDS,
    TECH_SKILLS, unwords]

theorem ckm_jText9 : calculateKeywordMatch ks9 jText9 = 1 := by
  rw [calculateKeywordMatch]
  norm_num +decide [ks9, jText9, cleanText, charFilter, scanSub, scanAux,
    urlHit, emailHit, hasPre, nonSpaceAt, isSpc, keepChar, pyLower, unwords,
    words, wordsAux, hasSub, findSub, countSub, countAux, posBonus,
    Real.sqrt_one, min_def]

theorem ckm_jText9' : calculateKeywordMatch ks9 jText9' = 24 / 25 := by
  rw [calculateKeywordMatch]
  norm_num +decide [ks9, jText9', cleanText, charFilter, scanSub, scanAux,
    urlHit, emailHit, hasPre, nonSpaceAt, isSpc, keepChar, pyLower, unwords,
    words, wordsAux, hasSub, findSub, countSub, countAux, posBonus,
    Real.sqrt_one, min_def]

/-- C9 counterexample: for the query-keyword list extracted from `rText9`,
inserting one occurrence of the query keyword `api` into the middle of the
job text `machine learning` (giving `machine api learning`) STRICTLY
DECREASES the keyword-match score — the insertion destroys the occurrence of
the heavier bigram keyword `machine learning`. -/
theorem c9_counterexample :
    (("api" : String)).toList ∈ (extractKeywords rText9 40).map Prod.fst ∧
    countSub (("api" : String)).toList (cleanText jText9')
      = countSub (("api" : String)).toList (cleanText jText9) + 1 ∧
    calculateKeywordMatch (extractKeywords rText9 40) jText9'
      < calculateKeywordMatch (extractKeywords rText9 40) jText9 := by
  refine ⟨?_, ?_, ?_⟩
  · rw [extractKeywords_rText9]
    decide
  · decide
  · rw [extractKeywords_rText9, ckm_jText9, ckm_jText9']
    norm_num

theorem length_insByKey {α β : Type} [LinearOrder β] (key : α → β) :
    ∀ (l : List α) (x : α), (insByKey key l x).length = l.length + 1
  | [], _ => rfl
  | y :: ys, x => by
    unfold insByKey
    split
    · simp [length_insByKey key ys x]
    · simp

theorem length_sortByKeyDesc {α β : Type} [LinearOrder β] (key : α → β)
    (l : List α) : (sortByKeyDesc key l).length = l.length := by
  suffices h : ∀ acc : List α,
      (l.foldl (insByKey key) acc).length = acc.length + l.length by
    simpa [sortByKeyDesc] using h []
  induction l with
  | nil => simp
  | cons z zs ih =>
    intro acc
    simp only [List.foldl_cons, ih, length_insByKey, List.length_cons]
    omega

theorem length_buildMatchResponses (jobs : List JobDoc)
    (smap : List (Nat × ℝ)) :
    (buildMatchResponses jobs smap).length = jobs.length := by
  unfold buildMatchResponses
  rw [length_sortByKeyDesc, List.length_map]

theorem applyFilters_sublist (jobs : List JobDoc) (jobLevel : Option (List Char))
    (stipendMin : Option ℚ) (internshipOnly : Option Bool) :
    List.Sublist (applyFilters jobs jobLevel stipendMin internshipOnly) jobs := by
  have hif : ∀ (c : Bool) (l : List JobDoc) (p : JobDoc → Bool),
      List.Sublist (if c = true then l else l.filter p) l := by
    intro c l p
    cases c
    · exact List.filter_sublist l
    · simp
  unfold applyFilters
  rcases internshipOnly with _ | b <;> try cases b
  all_goals rcases stipendMin with _ | m
  all_goals rcases jobLevel with _ | lvl
  all_goals
    first
      | exact List.Sublist.refl _
      | exact hif _ _ _
      | exact List.filter_sublist _
      | exact (List.filter_sublist _).trans (hif _ _ _)
      | exact (List.filter_sublist _).trans (List.filter_sublist _)
      | exact (List.filter_sublist _).trans
          ((List.filter_sublist _).trans (hif _ _ _))

/-- Pointwise facts about a survivor of `_apply_filters`: it matched the
requested job level (when one was given and non-empty), the internship flag
(when `internship_only=True`), and the Python-truthiness salary guard (when a
stipend minimum was given). -/
theorem applyFilters_sound {jobs : List JobDoc} {jobLevel : Option (List Char)}
    {stipendMin : Option ℚ} {internshipOnly : Option Bool} {j : JobDoc}
    (hj : j ∈ applyFilters jobs jobLevel stipendMin internshipOnly) :
    (∀ lvl, jobLevel = some lvl → lvl.isEmpty = false →
      j.job_level = some lvl) ∧
    (internshipOnly = some true → j.is_internship = true) ∧
    (∀ m, stipendMin = some m →
      ((match j.salary_min with
         | none => false
         | some v => !(v == 0) && decide (m ≤ v)) ||
       (match j.salary_max with
         | none => false
         | some v => !(v == 0) && decide (m ≤ v))) = true) := by
  unfold applyFilters at hj
  rcases internshipOnly with _ | b <;> try cases b
  all_goals rcases stipendMin with _ | m
  all_goals rcases jobLevel with _ | lvl
  all_goals try simp only [List.mem_filter] at hj
  all_goals refine ⟨?_, ?_, ?_⟩ <;> intros <;> simp_all

theorem salaryCond_iff (m : ℚ) (j : JobDoc) :
    ((match j.salary_min with
       | none => false
       | some v => !(v == 0) && decide (m ≤ v)) ||
     (match j.salary_max with
       | none => false
       | some v => !(v == 0) && decide (m ≤ v))) = true
    ↔ (∃ v, j.salary_min = some v ∧ ¬v = 0 ∧ m ≤ v) ∨
      (∃ v, j.salary_max = some v ∧ ¬v = 0 ∧ m ≤ v) := by
  rcases hmin : j.salary_min with _ | v <;>
    rcases hmax : j.salary_max with _ | w <;> simp [hmin, hmax]

theorem localRagPath_len (resumeText : List Char)
    (location : Option (List Char)) (internshipOnly : Option Bool)
    (maxResults : Nat) (store : List JobDoc) :
    (localRagPath resumeText location internshipOnly maxResults store).1.length
      ≤ maxResults := by
  unfold localRagPath
  simp only [List.length_map]
  exact List.length_take_le _ _

theorem localRagPath_sub_store {resumeText : List Char}
    {location : Option (List Char)} {internshipOnly : Option Bool}
    {maxResults : Nat} {store : List JobDoc} {j : JobDoc}
    (hj : j ∈ (localRagPath resumeText location internshipOnly maxResults store).1) :
    j ∈ store := by
  unfold localRagPath at hj
  simp only [List.mem_map] at hj
  obtain ⟨q, hq, rfl⟩ := hj
  have hq1 := (List.mem_filter.mp (List.mem_of_mem_take hq)).1
  rw [mem_sortByKeyDesc] at hq1
  simp only [List.mem_map] at hq1
  obtain ⟨c, hc, rfl⟩ := hq1
  exact (List.mem_filter.mp (List.mem_of_mem_take hc)).1

/-- C6, amended claim: in `match_resume_to_jobs` the post-filters run only
AFTER the ranking has been thresholded and truncated to `max_results`, on
both paths.  What remains true on a cache miss with the local fallback
selected: the output holds at most `max_results` entries and every returned
entry renders a stored job that satisfies all the requested post-filter
predicates — but a job that passes the post-filters while ranking outside
the pre-filter truncation is silently dropped (see the counterexample). -/
theorem c6_amended (resumeText : List Char) (location : Option (List Char))
    (internshipOnly : Option Bool) (jobLevel : Option (List Char))
    (stipendMin : Option ℚ) (maxResults : Nat)
    (remote : Except Unit (List CtsResult)) (store : List JobDoc)
    (hrem : remote = .error () ∨ remote = .ok []) :
    (matchResumeToJobs resumeText location internshipOnly jobLevel stipendMin
        maxResults none remote store).length ≤ maxResults ∧
    ∀ resp ∈ matchResumeToJobs resumeText location internshipOnly jobLevel
        stipendMin maxResults none remote store,
      ∃ j ∈ store, resp.job_id = j.oid ∧
        (∀ lvl, jobLevel = some lvl → lvl.isEmpty = false →
          j.job_level = some lvl) ∧
        (internshipOnly = some true → j.is_internship = true) ∧
        (∀ m, stipendMin = some m →
          (∃ v, j.salary_min = some v ∧ ¬v = 0 ∧ m ≤ v) ∨
          (∃ v, j.salary_max = some v ∧ ¬v = 0 ∧ m ≤ v)) := by
  have hmain :
      matchResumeToJobs resumeText location internshipOnly jobLevel stipendMin
          maxResults none remote store
        = buildMatchResponses
            (applyFilters
              (localRagPath resumeText location internshipOnly maxResults store).1
              jobLevel stipendMin internshipOnly)
            (localRagPath resumeText location internshipOnly maxResults store).2 := by
    rcases hrem with rfl | rfl <;> simp [matchResumeToJobs]
  constructor
  · rw [hmain, length_buildMatchResponses]
    exact le_trans (applyFilters_sublist _ _ _ _).length_le
      (localRagPath_len resumeText location internshipOnly maxResults store)
  · intro resp hresp
    rw [hmain] at hresp
    unfold buildMatchResponses at hresp
    rw [mem_sortByKeyDesc] at hresp
    simp only [List.mem_map] at hresp
    obtain ⟨job, hjob, hresp_eq⟩ := hresp
    obtain ⟨h1, h2, h3⟩ := applyFilters_sound hjob
    subst hresp_eq
    exact ⟨job, localRagPath_sub_store (applyFilters_subset hjob), rfl, h1, h2,
      fun m hm => (salaryCond_iff m job).mp (h3 m hm)⟩

def rText6 : List Char := (("python" : String)).toList

def lvlEntry : List Char := (("ENTRY_LEVEL" : String)).toList

/-- A high-scoring job that fails the `ENTRY_LEVEL` post-filter. -/
def jobA6 : JobDoc :=
  { oid := 1, adzuna_id := (("a1" : String)).toList
    requisition_id := (("r1" : String)).toList
    title := (("a" : String)).toList
    description := (("python x" : String)).toList
    company_display_name := none, location := none, employment_type := none
    job_level := some ((("SENIOR_LEVEL" : String)).toList)
    salary_min := none, salary_max := none, category := none
    redirect_url := none, status := statusActive, is_internship := false
    is_remote := false, updated_at := 0, expires_at := 0 }

/-- A slightly lower-scoring job that passes the `ENTRY_LEVEL` post-filter. -/
def jobB6 : JobDoc :=
  { oid := 2, adzuna_id := (("a2" : String)).toList
    requisition_id := (("r2" : String)).toList
    title := (("b" : String)).toList
    description := (("python v w" : String)).toList
    company_display_name := none, location := none, employment_type := none
    job_level := some lvlEntry
    salary_min := none, salary_max := none, category := none
    redirect_url := none, status := statusActive, is_internship := false
    is_remote := false, updated_at := 0, expires_at := 0 }

theorem score_jobA6 : matchResumeToJob rText6 jobA6 = 31 / 40 := by
  rw [matchResumeToJob]
  norm_num +decide [rText6, jobA6, extractKeywords, extractSkills,
    calculateKeywordMatch, calculateSkillMatch, calculateTextSimilarity,
    words, wordsAux, cleanText, charFilter, scanSub, scanAux, urlHit, emailHit,
    hasPre, nonSpaceAt, isSpc, keepChar, pyLower, unwords, uniPass, bump,
    sortByKeyDesc, insByKey, STOP_WORDS, TECH_SKILLS, hasSub, findSub,
    countSub, countAux, posBonus, Real.sqrt_one, min_def, List.take]

theorem score_jobB6 : matchResumeToJob rText6 jobB6 = 59 / 80 := by
  rw [matchResumeToJob]
  norm_num +decide [rText6, jobB6, extractKeywords, extractSkills,
    calculateKeywordMatch, calculateSkillMatch, calculateTextSimilarity,
    words, wordsAux, cleanText, charFilter, scanSub, scanAux, urlHit, emailHit,
    hasPre, nonSpaceAt, isSpc, keepChar, pyLower, unwords, uniPass, bump,
    sortByKeyDesc, insByKey, STOP_WORDS, TECH_SKILLS, hasSub, findSub,
    countSub, countAux, posBonus, Real.sqrt_one, min_def, List.take]

/-- C6 counterexample: with `max_results = 1`, an `ENTRY_LEVEL` job-level
post-filter, a cache miss and the local fallback selected, the truncation to
one result keeps only the higher-scoring `SENIOR_LEVEL` job; the post-filter
then removes it and `match_resume_to_jobs` returns NOTHING — even though
`jobB6` passes the post-filters, scores above the 0.1 threshold, and is the
top-ranked job among the post-filter survivors. -/
theorem c6_counterexample :
    matchResumeToJobs rText6 none (some false) (some lvlEntry) none 1 none
        (.ok []) [jobA6, jobB6] = [] ∧
    applyFilters [jobA6, jobB6] (some lvlEntry) none (some false) = [jobB6] ∧
    (0.1 : ℝ) < matchResumeToJob rText6 jobB6 := by
  refine ⟨?_, ?_, ?_⟩
  · rw [matchResumeToJobs]
    norm_num +decide [localRagPath, score_jobA6, score_jobB6, sortByKeyDesc,
      insByKey, applyFilters, buildMatchResponses, List.take, List.filter,
      min_def]
  · decide
  · rw [score_jobB6]
    norm_num

/-- C6 witness: the amended contract at the counterexample's input — at most
one entry comes back, and any returned entry renders a stored job matching
the `ENTRY_LEVEL` post-filter. -/
theorem c6_witness :
    (matchResumeToJobs rText6 none (some false) (some lvlEntry) none 1 none
        (.ok []) [jobA6, jobB6]).length ≤ 1 ∧
    ∀ resp ∈ matchResumeToJobs rText6 none (some false) (some lvlEntry) none 1
        none (.ok []) [jobA6, jobB6],
      ∃ j ∈ [jobA6, jobB6], resp.job_id = j.oid ∧
        (∀ lvl, some lvlEntry = some lvl → lvl.isEmpty = false →
          j.job_level = some lvl) ∧
        (some false = some true → j.is_internship = true) ∧
        (∀ m, (none : Option ℚ) = some m →
          (∃ v, j.salary_min = some v ∧ ¬v = 0 ∧ m ≤ v) ∨
          (∃ v, j.salary_max = some v ∧ ¬v = 0 ∧ m ≤ v)) :=
  c6_amended rText6 none (some false) (some lvlEntry) none 1 (.ok [])
    [jobA6, jobB6] (Or.inr rfl)

/-- Modelled from the spec: the claimed stop rule — pagination stops when a
page returns zero results or when the CUMULATIVE number of fetched postings
reaches the source-reported total-count hint (within the `max_pages` bound);
a page failure aborts but keeps prior postings.  Differs from the source only
in the threshold test. -/
def specFetchGo (pages : Nat → Except Unit AdzunaPage) :
    Nat → Nat → List Nat → List Nat
  | 0, _, acc => acc
  | fuel + 1, page, acc =>
    match pages page with
    | .error _ => acc
    | .ok r =>
      if r.results.isEmpty then acc
      else
        let acc' := acc ++ r.results
        if r.count ≤ acc'.length then acc'
        else specFetchGo pages fuel (page + 1) acc'

/-- Modelled from the spec: `fetch_all_jobs` with the cumulative-count stop
rule the claim describes. -/
def specFetchAllJobs (pages : Nat → Except Unit AdzunaPage) (maxPages : Nat) :
    List Nat :=
  specFetchGo pages maxPages 1 []

/-- A source with two one-posting pages and a total-count hint of 2, against
`results_per_page = 2`. -/
def pagesC7 : Nat → Except Unit AdzunaPage := fun q =>
  if q = 1 then .ok { results := [11], count := 2 } else .ok { results := [12], count := 2 }

/-- C7, counterexample.  With `results_per_page = 2`, page 1 returns ONE
posting and reports `count = 2`: the code stops because
`page * results_per_page = 2 ≥ count`, although only 1 < 2 postings were
fetched and page 2 is non-empty — the spec's cumulative-count rule would
fetch page 2 as well, as `specFetchAllJobs` shows. -/
theorem c7_counterexample :
    fetchAllJobs pagesC7 2 5 = [11]
      ∧ specFetchAllJobs pagesC7 5 = [11, 12]
      ∧ pagesC7 2 = .ok { results := [12], count := 2 } := by
  refine ⟨by decide, by decide, rfl⟩

/-- Concatenation of the results of pages `page, page+1, ...` (`n` pages). -/
def segConcatAux (R : Nat → AdzunaPage) : Nat → Nat → List Nat
  | 0, _ => []
  | n + 1, page => (R page).results ++ segConcatAux R n (page + 1)

/-- Concatenation of the results of pages `page ≤ q < p`. -/
def segConcat (R : Nat → AdzunaPage) (page p : Nat) : List Nat :=
  segConcatAux R (p - page) page

theorem fetchGo_char (pages : Nat → Except Unit AdzunaPage) (R : Nat → AdzunaPage)
    (rpp p : Nat) :
    ∀ fuel page acc, page ≤ p → p < page + fuel →
      (∀ q, page ≤ q → q < p →
        pages q = .ok (R q) ∧ (R q).results ≠ [] ∧ q * rpp < (R q).count) →
      ((pages p = .error () →
          fetchGo pages rpp fuel page acc = acc ++ segConcat R page p) ∧
        (∀ r, pages p = .ok r → r.results = [] →
          fetchGo pages rpp fuel page acc = acc ++ segConcat R page p) ∧
        (∀ r, pages p = .ok r → r.results ≠ [] → r.count ≤ p * rpp →
          fetchGo pages rpp fuel page acc = acc ++ segConcat R page p ++ r.results)) := by
  intro fuel
  induction fuel with
  | zero =>
    intro page acc h1 h2 _
    omega
  | succ fuel ih =>
    intro page acc h1 h2 hcont
    by_cases hpp : page = p
    · subst hpp
      have hseg : segConcat R page page = [] := by
        simp [segConcat, segConcatAux]
      refine ⟨fun herr => ?_, fun r hok hemp => ?_, fun r hok hne hcnt => ?_⟩
      · simp [fetchGo, herr, hseg]
      · simp [fetchGo, hok, hemp, hseg]
      · have : r.results.isEmpty = false := by
          cases hr : r.results with
          | nil => exact absurd hr hne
          | cons a l => simp
        simp [fetchGo, hok, this, hcnt, hseg]
    · have hlt : page < p := lt_of_le_of_ne h1 hpp
      obtain ⟨hok, hne, hcnt⟩ := hcont page le_rfl hlt
      have hemp : (R page).results.isEmpty = false := by
        cases hr : (R page).results with
        | nil => exact absurd hr hne
        | cons a l => simp
      have hstep :
          fetchGo pages rpp (fuel + 1) page acc
            = fetchGo pages rpp fuel (page + 1) (acc ++ (R page).results) := by
        simp [fetchGo, hok, hemp, Nat.not_le.mpr hcnt]
      have hsegstep :
          segConcat R page p = (R page).results ++ segConcat R (page + 1) p := by
        have hn : p - page = (p - (page + 1)) + 1 := by omega
        simp only [segConcat, hn, segConcatAux]
      obtain ⟨c1, c2, c3⟩ := ih (page + 1) (acc ++ (R page).results)
        hlt (by omega) (fun q hq1 hq2 => hcont q (by omega) hq2)
      refine ⟨fun herr => ?_, fun r hok' hemp' => ?_, fun r hok' hne' hcnt' => ?_⟩
      · rw [hstep, c1 herr, hsegstep, List.append_assoc]
      · rw [hstep, c2 r hok' hemp', hsegstep, List.append_assoc]
      · rw [hstep, c3 r hok' hne' hcnt', hsegstep]
        simp [List.append_assoc]

/-- C7, amended claim: `fetch_all_jobs` requests pages in increasing order
from 1 and stops exactly when a page returns zero results or when
`page * results_per_page` — the request capacity so far, NOT the cumulative
number of postings actually fetched — reaches the page's reported count
(within the `max_pages` bound); on a page-fetch failure it aborts further
pagination but returns the postings gathered from prior pages instead of
failing.  When every fetched page is full the capacity equals the cumulative
count and the spec's rule coincides. -/
theorem c7_amended (pages : Nat → Except Unit AdzunaPage) (R : Nat → AdzunaPage)
    (rpp maxPages p : Nat) (hp1 : 1 ≤ p) (hpm : p ≤ maxPages)
    (hcont : ∀ q, 1 ≤ q → q < p →
      pages q = .ok (R q) ∧ (R q).results ≠ [] ∧ q * rpp < (R q).count) :
    (pages p = .error () →
        fetchAllJobs pages rpp maxPages = segConcat R 1 p) ∧
      (∀ r, pages p = .ok r → r.results = [] →
        fetchAllJobs pages rpp maxPages = segConcat R 1 p) ∧
      (∀ r, pages p = .ok r → r.results ≠ [] → r.count ≤ p * rpp →
        fetchAllJobs pages rpp maxPages = segConcat R 1 p ++ r.results) := by
  have h := fetchGo_char pages R rpp p maxPages 1 [] hp1 (by omega) hcont
  simpa [fetchAllJobs] using h

/-- C7 witness: a concrete two-full-pages run stopping on the capacity rule
at page 2 (where it agrees with the cumulative rule). -/
theorem c7_witness :
    fetchAllJobs
        (fun q => if q = 1 then .ok { results := [1, 2], count := 3 }
          else .ok { results := [3], count := 3 }) 2 5
      = segConcat
        (fun q => if q = 1 then { results := [1, 2], count := 3 }
          else { results := [3], count := 3 }) 1 2 ++ [3] :=
  (c7_amended
      (fun q => if q = 1 then .ok { results := [1, 2], count := 3 }
        else .ok { results := [3], count := 3 })
      (fun q => if q = 1 then { results := [1, 2], count := 3 }
        else { results := [3], count := 3 })
      2 5 2 (by decide) (by decide)
      (by
        intro q h1 h2
        have : q = 1 := by omega
        subst this
        refine ⟨rfl, by decide, by decide⟩)).2.2
    { results := [3], count := 3 } rfl (by decide) (by decide)

/-! # Claim C1: the staleness sweep -/

/-- An active record last updated at time 0, with `expires_at` still in the
future at sweep time. -/
def j1 : JobDoc :=
  { oid := 7
    adzuna_id := (("ad7" : String)).toList
    requisition_id := (("req-7" : String)).toList
    title := (("t" : String)).toList
    description := (("d" : String)).toList
    company_display_name := none
    location := none
    employment_type := none
    job_level := none
    salary_min := none
    salary_max := none
    category := none
    redirect_url := none
    status := statusActive
    is_internship := false
    is_remote := false
    updated_at := 0
    expires_at := 1000 }

/-- C8.  `LocalRAGMatcher.match_resume_to_job` is deterministic and
side-effect-free: every step (normalization, keyword/skill extraction, the
three component scores, the weighted combination) is a pure function of the
two arguments and the module-level constant vocabularies, with no hidden
state, randomness or I/O, so two calls on identical inputs return
bit-identical scores. -/
theorem c8_deterministic (r1 r2 : List Char) (j1' j2' : JobDoc)
    (hr : r1 = r2) (hj : j1' = j2') :
    matchResumeToJob r1 j1' = matchResumeToJob r2 j2' := by
  rw [hr, hj]

/-- C8 witness: two identical concrete calls yield the identical score. -/
theorem c8_witness :
    matchResumeToJob (("python dev" : String)).toList j1
      = matchResumeToJob (("python dev" : String)).toList j1 :=
  c8_deterministic (("python dev" : String)).toList
    (("python dev" : String)).toList j1 j1 rfl rfl

/-- C1, counterexample.  A run that starts at time 500, fetches nothing and
sweeps at time 600 leaves `j1` untouched: `j1.updated_at = 0` is before the
run's start, yet the record is still `"active"` after the run, because
`_mark_expired_jobs` cuts on `expires_at < now` (here `1000 ≥ 600`), not on
`updated_at` against the run's start timestamp. -/
theorem c1_counterexample :
    (syncJobsFromAdzuna 30 none [] [j1] 600).store = [j1]
      ∧ j1.updated_at < 500 ∧ j1.status = statusActive := by
  refine ⟨?_, by decide, by decide⟩
  decide

/-- Run invariant for the C1 analysis: every stored record is either an
untouched pre-run record (written before `t0`, still active) or a record the
run created/updated (timestamped in the run, active, expiry past the sweep). -/
def c1Inv (t0 tSweep : ℤ) (j : JobDoc) : Prop :=
  (j.updated_at < t0 ∧ j.status = statusActive) ∨
    (t0 ≤ j.updated_at ∧ j.status = statusActive ∧ tSweep ≤ j.expires_at)

theorem mem_updFirst {aid : List Char} {f : JobDoc → JobDoc} {l : List JobDoc}
    {x : JobDoc} (hx : x ∈ updFirst aid f l) : x ∈ l ∨ ∃ j ∈ l, x = f j := by
  induction l with
  | nil => simp [updFirst] at hx
  | cons j rest ih =>
    simp only [updFirst] at hx
    by_cases hj : (j.adzuna_id == aid) = true
    · rw [if_pos hj] at hx
      rcases List.mem_cons.mp hx with h | h
      · exact Or.inr ⟨j, List.mem_cons_self _ _, h⟩
      · exact Or.inl (List.mem_cons_of_mem _ h)
    · rw [if_neg hj] at hx
      rcases List.mem_cons.mp hx with h | h
      · exact Or.inl (h ▸ List.mem_cons_self _ _)
      · rcases ih h with h' | ⟨y, hy, hxy⟩
        · exact Or.inl (List.mem_cons_of_mem _ h')
        · exact Or.inr ⟨y, List.mem_cons_of_mem _ hy, hxy⟩

/-- The per-item loop body can only touch the store through `upsertStore`. -/
theorem processItem_store (E : ℤ) (q : Option (List Char)) (acc : SyncState)
    (it : FetchedItem) :
    (processItem E q acc it).store =
      match it.parsed with
      | none => acc.store
      | some p =>
        if it.upsertOk then upsertStore E it p acc.store else acc.store := by
  unfold processItem
  cases it.parsed with
  | none => rfl
  | some p =>
    cases hu : it.upsertOk with
    | false => rfl
    | true =>
      simp only [Bool.not_true, Bool.false_eq_true, if_false, if_true]
      split <;> rfl

theorem mem_upsertStore {E : ℤ} {it : FetchedItem} {p : ParsedJob}
    {store : List JobDoc} {x : JobDoc} (hx : x ∈ upsertStore E it p store) :
    x ∈ store ∨ (∃ j ∈ store, x = updateJob it.t E p j) ∨
      x = createJob it.t E p it.oid it.reqId := by
  unfold upsertStore at hx
  split at hx
  · rcases mem_updFirst hx with h | h
    · exact Or.inl h
    · exact Or.inr (Or.inl h)
  · rcases List.mem_append.mp hx with h | h
    · exact Or.inl h
    · exact Or.inr (Or.inr (List.mem_singleton.mp h))

theorem processItem_inv {E : ℤ} {q : Option (List Char)} {t0 tSweep : ℤ}
    {acc : SyncState} {it : FetchedItem}
    (hT : t0 ≤ it.t ∧ tSweep ≤ it.t + E)
    (hacc : ∀ j ∈ acc.store, c1Inv t0 tSweep j) :
    ∀ j ∈ (processItem E q acc it).store, c1Inv t0 tSweep j := by
  intro j hj
  rw [processItem_store] at hj
  rcases hp : it.parsed with _ | p
  · simp only [hp] at hj
    exact hacc j hj
  · simp only [hp] at hj
    split at hj
    · rcases mem_upsertStore hj with h | ⟨y, _, hy⟩ | hy
      · exact hacc j h
      · subst hy
        exact Or.inr ⟨hT.1, rfl, by simpa [updateJob] using hT.2⟩
      · subst hy
        exact Or.inr ⟨hT.1, rfl, by simpa [createJob] using hT.2⟩
    · exact hacc j hj

theorem syncFold_inv {E : ℤ} {q : Option (List Char)} {t0 tSweep : ℤ}
    {items : List FetchedItem} {acc : SyncState}
    (hit : ∀ it ∈ items, t0 ≤ it.t ∧ tSweep ≤ it.t + E)
    (hacc : ∀ j ∈ acc.store, c1Inv t0 tSweep j) :
    ∀ j ∈ (items.foldl (processItem E q) acc).store, c1Inv t0 tSweep j := by
  induction items generalizing acc with
  | nil => simpa using hacc
  | cons it rest ih =>
    simp only [List.foldl_cons]
    exact ih (fun x hx => hit x (List.mem_cons_of_mem _ hx))
      (processItem_inv (hit it (List.mem_cons_self _ _)) hacc)

/-- C1, amended claim: `_mark_expired_jobs` expires exactly the active
records whose `expires_at` lies before the sweep time; a record merely not
updated since the run's start is NOT expired unless its `expires_at` has
passed, while records created or updated during the run get
`expires_at = update time + JOB_EXPIRY_DAYS`, so (whenever that expiry
exceeds the remaining run duration) they are never expired by the run. -/
theorem c1_amended (E : ℤ) (q : Option (List Char)) (items : List FetchedItem)
    (store : List JobDoc) (t0 tSweep : ℤ)
    (hact : ∀ j ∈ store, j.status = statusActive)
    (hold : ∀ j ∈ store, j.updated_at < t0)
    (hit : ∀ it ∈ items, t0 ≤ it.t ∧ tSweep ≤ it.t + E) :
    ∀ j ∈ (syncJobsFromAdzuna E q items store tSweep).store,
      (t0 ≤ j.updated_at → j.status = statusActive) ∧
        (j.status = statusExpired → j.expires_at < tSweep) := by
  intro j hj
  have hinv : ∀ x ∈ (items.foldl (processItem E q) ⟨store, 0, 0, 0⟩).store,
      c1Inv t0 tSweep x :=
    syncFold_inv hit (fun x hx => Or.inl ⟨hold x hx, hact x hx⟩)
  unfold syncJobsFromAdzuna at hj
  simp only [markExpiredJobs, List.mem_map] at hj
  obtain ⟨x, hx, hxj⟩ := hj
  rcases hinv x hx with ⟨hup, hst⟩ | ⟨hup, hst, hex⟩
  · rw [hst] at hxj
    by_cases hlt : x.expires_at < tSweep
    · simp only [beq_self_eq_true, hlt, decide_True, Bool.and_self, if_true] at hxj
      subst hxj
      exact ⟨fun habs => absurd habs (not_le.mpr hup), fun _ => hlt⟩
    · simp only [beq_self_eq_true, hlt, decide_False, Bool.and_false,
        Bool.false_eq_true, if_false] at hxj
      subst hxj
      refine ⟨fun _ => hst, fun habs => ?_⟩
      rw [hst] at habs
      exact absurd habs (by decide)
  · rw [hst] at hxj
    have hlt : ¬x.expires_at < tSweep := not_lt.mpr hex
    simp only [beq_self_eq_true, hlt, decide_False, Bool.and_false,
      Bool.false_eq_true, if_false] at hxj
    subst hxj
    refine ⟨fun _ => hst, fun habs => ?_⟩
    rw [hst] at habs
    exact absurd habs (by decide)

/-- A posting for `j1`'s external id, processed at time 570. -/
def item1 : FetchedItem :=
  { parsed := some
      { adzuna_id := (("ad7" : String)).toList
        title := (("t2" : String)).toList
        description := (("d2" : String)).toList
        company_display_name := none
        location := none
        employment_type := (("FULL_TIME" : String)).toList
        job_level := (("MID_LEVEL" : String)).toList
        salary_min := none
        salary_max := none
        category := none
        redirect_url := none
        is_internship := false
        is_remote := false }
    upsertOk := true
    typeSaveOk := true
    oid := 9
    reqId := (("req-9" : String)).toList
    t := 570 }

/-- The record `j1` carries after the run of `c1_witness`: updated at 570,
expiring 30 later at 600. -/
def j1run : JobDoc :=
  { oid := 7
    adzuna_id := (("ad7" : String)).toList
    requisition_id := (("req-7" : String)).toList
    title := (("t2" : String)).toList
    description := (("d2" : String)).toList
    company_display_name := none
    location := none
    employment_type := some ((("FULL_TIME" : String)).toList)
    job_level := some ((("MID_LEVEL" : String)).toList)
    salary_min := none
    salary_max := none
    category := none
    redirect_url := none
    status := statusActive
    is_internship := false
    is_remote := false
    updated_at := 570
    expires_at := 600 }

/-- C1 witness: a concrete run (one pre-run active record, one posting
updated during the run at time 570) on which the amended sweep behaviour
holds for the stored record the run leaves behind. -/
theorem c1_witness :
    (500 ≤ j1run.updated_at → j1run.status = statusActive) ∧
      (j1run.status = statusExpired → j1run.expires_at < 600) :=
  c1_amended 30 none [item1] [j1] 500 600 (by decide) (by decide) (by decide)
    j1run (by decide)

/-! # Claim C2: remote search failure vs. empty result -/

/-- C2, counterexample.  The claim says a network/authorization failure of
`CTSClient.search_jobs_with_resume` is a distinguishable error outcome,
different from a successful search with zero matches.  In the code the
`except GoogleAPIError` handler returns `[]`, the very value of a zero-match
success, so the two executions are indistinguishable to every caller. -/
theorem c2_counterexample :
    searchJobsWithResume (.error .serviceUnavailable) = searchJobsWithResume (.ok []) :=
  rfl

/-- C2, amended claim: on any `GoogleAPIError` raised by the search RPC —
transient or not — `search_jobs_with_resume` returns the empty list (the
method carries no retry decorator), so a hard remote failure yields the same
value as a successful search with zero matches; callers cannot tell the two
apart and both trigger the local fallback. -/
theorem c2_amended (e : GoogleAPIErr) (l : List CtsMatchingJob) :
    searchJobsWithResume (.error e) = [] ∧
      (searchJobsWithResume (.ok l) = [] ↔ l = []) := by
  refine ⟨rfl, ?_⟩
  cases l <;> simp [searchJobsWithResume]

/-! # Claim C5: cache fingerprint injectivity -/

/-- C5, counterexample.  The fingerprint preimage is the colon-joined
`str()` of the five inputs, so the distinct combinations
`resume_text = "a:ny", location = "c"` and `resume_text = "a",
location = "ny:c"` produce the same preimage (hence the same SHA-256
fingerprint): the separator is a character the resume text may contain. -/
theorem c5_counterexample :
    cacheKeyString (("a:ny" : String)).toList (some (("c" : String)).toList)
        (some false) none none
      = cacheKeyString (("a" : String)).toList (some (("ny:c" : String)).toList)
        (some false) none none
    ∧ (("a:ny" : String)).toList ≠ (("a" : String)).toList := by
  constructor
  · decide
  · decide

/-- C5, amended claim: the fingerprint is a pure function of the inputs
(identical combinations always produce the identical fingerprint), but it is
NOT injective: whatever the hash function, the colon-joined string rendering
already collides for distinct combinations — for example resume text `"a:ny"`
with location `"c"` against resume text `"a"` with location `"ny:c"`. -/
theorem c5_amended (sha256 : List Char → List Char) :
    generateCacheKey sha256 (("a:ny" : String)).toList
        (some (("c" : String)).toList) (some false) none none
      = generateCacheKey sha256 (("a" : String)).toList
        (some (("ny:c" : String)).toList) (some false) none none := by
  unfold generateCacheKey
  exact congrArg sha256 (by decide)

/-! # Claim C4: sync run accounting -/

def p4 : ParsedJob :=
  { adzuna_id := (("ad1" : String)).toList
    title := (("t" : String)).toList
    description := (("d" : String)).toList
    company_display_name := none
    location := none
    employment_type := (("FULL_TIME" : String)).toList
    job_level := (("MID_LEVEL" : String)).toList
    salary_min := none
    salary_max := none
    category := none
    redirect_url := none
    is_internship := false
    is_remote := false }

/-- A posting whose create succeeds but whose job-type upsert then raises. -/
def item4 : FetchedItem :=
  { parsed := some p4, upsertOk := true, typeSaveOk := false,
    oid := 1, reqId := (("req-1" : String)).toList, t := 0 }

/-- C4, counterexample.  One fetched posting is created successfully
(`jobs_created` is incremented), then the job-type upsert inside the same
per-item `try` raises, so the `except` also increments `jobs_failed`: the
posting is counted twice and `created + updated + failed = 2 ≠ 1 = fetched`. -/
theorem c4_counterexample :
    (syncJobsFromAdzuna 30 (some (("Civil Engineer" : String)).toList)
        [item4] [] 100).jobs_created
      + (syncJobsFromAdzuna 30 (some (("Civil Engineer" : String)).toList)
        [item4] [] 100).jobs_updated
      + (syncJobsFromAdzuna 30 (some (("Civil Engineer" : String)).toList)
        [item4] [] 100).jobs_failed
      ≠ (syncJobsFromAdzuna 30 (some (("Civil Engineer" : String)).toList)
        [item4] [] 100).jobs_fetched := by
  decide

/-- Per-item accounting: provided the job-type save cannot raise after a
successful create/update, each item adds exactly one to
`created + updated + failed`. -/
theorem processItem_sum (E : ℤ) (q : Option (List Char)) (acc : SyncState)
    (it : FetchedItem)
    (h : it.parsed.isSome → it.upsertOk = true → it.typeSaveOk = true) :
    (processItem E q acc it).created + (processItem E q acc it).updated
        + (processItem E q acc it).failed
      = acc.created + acc.updated + acc.failed + 1 := by
  unfold processItem
  cases hp : it.parsed with
  | none =>
    simp only []
    omega
  | some p =>
    have hs : it.parsed.isSome = true := by simp [hp]
    by_cases hu : it.upsertOk = true
    · have ht := h hs hu
      simp only [hu, ht]
      by_cases he : acc.store.any (fun j => j.adzuna_id == p.adzuna_id) = true <;>
        simp [he] <;> omega
    · simp only [Bool.not_eq_true] at hu
      simp only [hu]
      simp
      omega

theorem syncFold_sum (E : ℤ) (q : Option (List Char)) (items : List FetchedItem)
    (acc : SyncState)
    (h : ∀ it ∈ items, it.parsed.isSome → it.upsertOk = true → it.typeSaveOk = true) :
    (items.foldl (processItem E q) acc).created
        + (items.foldl (processItem E q) acc).updated
        + (items.foldl (processItem E q) acc).failed
      = acc.created + acc.updated + acc.failed + items.length := by
  induction items generalizing acc with
  | nil => simp
  | cons it rest ih =>
    simp only [List.foldl_cons, List.length_cons]
    rw [ih _ (fun x hx => h x (List.mem_cons_of_mem _ hx)),
      processItem_sum E q acc it (h it (List.mem_cons_self _ _))]
    omega

/-- C4, amended claim: each fetched posting increments `created` or `updated`
at most once and `failed` at most once, and it is double-counted exactly when
its create/update succeeded but the subsequent job-type save raised; hence
`jobs_created + jobs_updated + jobs_failed = jobs_fetched` holds for every
completed run in which no job-type save fails after a successful
create/update (and in general the left side can only exceed the right). -/
theorem c4_amended (E : ℤ) (q : Option (List Char)) (items : List FetchedItem)
    (store : List JobDoc) (tSweep : ℤ)
    (h : ∀ it ∈ items, it.parsed.isSome → it.upsertOk = true → it.typeSaveOk = true) :
    (syncJobsFromAdzuna E q items store tSweep).jobs_created
        + (syncJobsFromAdzuna E q items store tSweep).jobs_updated
        + (syncJobsFromAdzuna E q items store tSweep).jobs_failed
      = (syncJobsFromAdzuna E q items store tSweep).jobs_fetched := by
  unfold syncJobsFromAdzuna
  simpa using syncFold_sum E q items ⟨store, 0, 0, 0⟩ h

/-- C4 witness: a concrete completed run (one successfully created posting
with a successful job-type save) satisfying the amended accounting. -/
theorem c4_witness :
    (syncJobsFromAdzuna 30 none
          [{ item4 with typeSaveOk := true }] [] 100).jobs_created
        + (syncJobsFromAdzuna 30 none
          [{ item4 with typeSaveOk := true }] [] 100).jobs_updated
        + (syncJobsFromAdzuna 30 none
          [{ item4 with typeSaveOk := true }] [] 100).jobs_failed
      = (syncJobsFromAdzuna 30 none
          [{ item4 with typeSaveOk := true }] [] 100).jobs_fetched :=
  c4_amended 30 none [{ item4 with typeSaveOk := true }] [] 100
    (by decide)
